import Mathlib

/-!
Verification development for the skills-hub Acquisition, Caching &
Synchronization Engine (Rust sources under `src-tauri/src/core/`).

Shallow embedding conventions:
* Rust `String`/`&str` values that the claims inspect character by
  character (URL references, descriptor files, cache keys) are embedded
  as `List Char`; record fields that are only carried around are `String`.
* Rust `i64` timestamps are embedded as `Int`; the saturating i64
  arithmetic used by the cache freshness check is made explicit.
* Filesystem and network effects are passed in as explicit parameters
  (directory-exists booleans, fetch outcomes per attempt) and the
  functions return an outcome structure recording the writes performed.
-/

/-! ## Generic character-list helpers (models of Rust `str` methods) -/

/-- A Rust string, viewed as its character sequence. -/
abbrev Str := List Char

/-- Model of Rust `str::split('/')`-style splitting on a single separator
character: `"a/b"` gives `["a","b"]`, `""` gives `[""]`, `"/"` gives
`["", ""]`. -/
def splitOnChar (c : Char) : Str → List Str
  | [] => [[]]
  | x :: xs =>
    if x = c then [] :: splitOnChar c xs
    else
      match splitOnChar c xs with
      | [] => [[x]]
      | h :: t => (x :: h) :: t

/-- Model of `Vec<&str>::join("/")` restricted to a one-character
separator: interleaves `c` between the pieces. -/
def intercalateChar (c : Char) : List Str → Str
  | [] => []
  | [s] => s
  | s :: rest => s ++ c :: intercalateChar c rest

/-- Model of Rust `str::trim_end_matches(c)` for a single-character
pattern: removes every trailing occurrence of `c`. -/
def trimEndChar (c : Char) (s : Str) : Str :=
  (s.reverse.dropWhile (fun x => x = c)).reverse

/-- Model of Rust `char::is_whitespace`: membership in the Unicode
White_Space set (U+0009–U+000D, U+0020, U+0085, U+00A0, U+1680,
U+2000–U+200A, U+2028, U+2029, U+202F, U+205F, U+3000). -/
def rustIsWhitespace (c : Char) : Bool :=
  c.toNat = 9 || c.toNat = 10 || c.toNat = 11 || c.toNat = 12 ||
  c.toNat = 13 || c.toNat = 32 || c.toNat = 133 || c.toNat = 160 ||
  c.toNat = 5760 || (8192 ≤ c.toNat && c.toNat ≤ 8202) ||
  c.toNat = 8232 || c.toNat = 8233 || c.toNat = 8239 ||
  c.toNat = 8287 || c.toNat = 12288

/-- Model of Rust `str::trim`: strips Unicode white space from both
ends. -/
def rustTrim (s : Str) : Str :=
  ((s.dropWhile rustIsWhitespace).reverse.dropWhile rustIsWhitespace).reverse

/-! ## Registry record types (from `core/skill_store.rs`) -/

/-- `SkillMetadata` from `core/skill_metadata.rs`. -/
structure SkillMetadata where
  name : String
  version : String
  description : Option String
  author : Option String
  tags : List String
  dependencies : List String
  deriving Repr, DecidableEq

/-- `SkillRecord` from `core/skill_store.rs`. -/
structure SkillRecord where
  id : String
  name : String
  source_type : String
  source_ref : Option String
  source_revision : Option String
  central_path : String
  content_hash : Option String
  created_at : Int
  updated_at : Int
  last_sync_at : Option Int
  last_seen_at : Int
  status : String
  metadata : Option SkillMetadata
  deriving Repr, DecidableEq

/-- `SkillTargetRecord` from `core/skill_store.rs`. -/
structure SkillTargetRecord where
  id : String
  skill_id : String
  tool : String
  target_path : String
  mode : String
  status : String
  last_error : Option String
  synced_at : Option Int
  deriving Repr, DecidableEq

/-- The skill row written back by `update_managed_skill_from_source`
(`core/installer.rs`, the `updated` record): identity and provenance
fields are copied from the existing row, `source_revision` falls back to
the old value when no new revision was resolved, and the freshness
fields are stamped with `now`. -/
def updatedSkillRecord (record : SkillRecord) (new_revision : Option String)
    (now : Int) (content_hash : Option String)
    (metadata : Option SkillMetadata) : SkillRecord :=
  { id := record.id
    name := record.name
    source_type := record.source_type
    source_ref := record.source_ref
    source_revision := new_revision.or record.source_revision
    central_path := record.central_path
    content_hash := content_hash
    created_at := record.created_at
    updated_at := now
    last_sync_at := record.last_sync_at
    last_seen_at := now
    status := "ok"
    metadata := metadata }

/-! ## Onboarding groups (from `core/onboarding.rs`) -/

/-- `OnboardingVariant` from `core/onboarding.rs` (paths flattened to
strings). -/
structure OnboardingVariant where
  tool : String
  name : String
  path : String
  fingerprint : Option String
  is_link : Bool
  link_target : Option String
  deriving Repr, DecidableEq

/-- `OnboardingGroup` from `core/onboarding.rs`. -/
structure OnboardingGroup where
  name : String
  variants : List OnboardingVariant
  has_conflict : Bool
  deriving Repr, DecidableEq

/-- The group construction step of `build_onboarding_plan_in_home`
(`core/onboarding.rs`): `uniq` is the number of distinct fingerprints
among variants that have one (the Rust code collects
`filter_map(fingerprint)` into a `HashSet` and takes its size), a zero
count is bumped to one, and the group conflicts when `uniq > 1`. -/
def onboardingGroupOf (name : String) (variants : List OnboardingVariant) :
    OnboardingGroup :=
  let uniq0 := ((variants.filterMap (fun v => v.fingerprint)).dedup).length
  let uniq := if uniq0 = 0 then 1 else uniq0
  { name := name, variants := variants, has_conflict := decide (1 < uniq) }

/-! ## Git cache acquisition (`clone_to_cache` in `core/installer.rs`) -/

/-- Smallest `i64` value. -/
def i64Min : Int := -(2 ^ 63)

/-- Largest `i64` value. -/
def i64Max : Int := 2 ^ 63 - 1

/-- Clamp an integer into the `i64` range, the result of Rust saturating
arithmetic. -/
def satI64 (x : Int) : Int := max i64Min (min i64Max x)

/-- Rust `i64::saturating_mul`. -/
def i64SaturatingMul (a b : Int) : Int := satI64 (a * b)

/-- Rust `i64::saturating_sub`. -/
def i64SaturatingSub (a b : Int) : Int := satI64 (a - b)

/-- `RepoCacheMeta` from `core/installer.rs`: the marker file stored
alongside each cached clone (`.skills-hub-cache.json`). -/
structure RepoCacheMeta where
  last_fetched_ms : Int
  head : Option String
  deriving Repr, DecidableEq

/-- What one call to `clone_to_cache` did: the returned revision (or the
surfaced error), whether the cached clone was reused without fetching,
how many times `clone_or_pull` ran, whether the cache directory was
destroyed for the clean-slate retry, and the marker written on success. -/
structure CloneToCacheOutcome where
  result : Except String String
  usedCache : Bool
  fetchAttempts : Nat
  removedCacheDir : Bool
  wroteMeta : Option RepoCacheMeta
  deriving Repr

/-- The freshness decision at the top of `clone_to_cache`: the cached
clone is served iff `repo_dir/.git` exists, the marker file was read and
parsed, its `head` is non-null, and `now - last_fetched_ms` (saturating)
is below the TTL converted to milliseconds (saturating), which must be
positive. Returns the recorded `head` when fresh.
`gitDirExists` stands for `repo_dir.join(".git").exists()` and `meta`
for the read-and-parse of the marker file (`none` on any failure). -/
def cacheFresh (gitDirExists : Bool) (meta : Option RepoCacheMeta)
    (ttlSecs now : Int) : Option String :=
  match gitDirExists, meta with
  | true, some ⟨last_fetched_ms, some head⟩ =>
    let ttl_ms := i64SaturatingMul ttlSecs 1000
    if 0 < ttl_ms ∧ i64SaturatingSub now last_fetched_ms < ttl_ms then
      some head
    else none
  | _, _ => none

/-- `clone_to_cache` from `core/installer.rs` (the part after resolving
the cache directory and taking the process-wide lock). `fetch i` is the
outcome of the `i`-th invocation of the external `clone_or_pull`
capability; `repoDirExists` stands for `repo_dir.exists()` at the retry
point. On a first fetch failure the cache directory is removed (when
present) and the fetch retried exactly once; the error surfaced after a
second failure is the second error (the Rust code attaches the first as
context). A successful fetch writes a fresh marker. -/
def cloneToCache (gitDirExists repoDirExists : Bool)
    (meta : Option RepoCacheMeta) (ttlSecs now : Int)
    (fetch : Nat → Except String String) : CloneToCacheOutcome :=
  match cacheFresh gitDirExists meta ttlSecs now with
  | some head =>
    { result := .ok head, usedCache := true, fetchAttempts := 0
      removedCacheDir := false, wroteMeta := none }
  | none =>
    match fetch 0 with
    | .ok rev =>
      { result := .ok rev, usedCache := false, fetchAttempts := 1
        removedCacheDir := false
        wroteMeta := some { last_fetched_ms := now, head := some rev } }
    | .error _ =>
      match fetch 1 with
      | .ok rev =>
        { result := .ok rev, usedCache := false, fetchAttempts := 2
          removedCacheDir := repoDirExists
          wroteMeta := some { last_fetched_ms := now, head := some rev } }
      | .error e2 =>
        { result := .error e2, usedCache := false, fetchAttempts := 2
          removedCacheDir := repoDirExists, wroteMeta := none }

/-! ## Copy-target re-sync loop of `update_managed_skill_from_source` -/

/-- What the per-target loop at the end of
`update_managed_skill_from_source` did: the target rows upserted (in
order), the tools pushed to `updated_targets`, and the error that
aborted the loop, if any. -/
structure SyncLoopOutcome where
  upserts : List SkillTargetRecord
  updatedTargets : List String
  err : Option String
  deriving Repr, DecidableEq

/-- The per-target loop of `update_managed_skill_from_source`
(`core/installer.rs`): a target whose tool has an adapter that is not
currently installed is skipped; a target is force-copied when its mode
is `"copy"` or its tool is `"cursor"`; `sync t` is the outcome of
`sync_dir_copy_with_overwrite` for that target (the resolved target
path on success). The Rust `?` on the sync call makes the first failure
return from the whole function: rows upserted before the failure stay,
the failing target's own row is not written at all, and the remaining
targets are never visited. -/
def syncCopyTargets (hasAdapter installed : String → Bool)
    (sync : SkillTargetRecord → Except String String) (now : Int) :
    List SkillTargetRecord → SyncLoopOutcome
  | [] => ⟨[], [], none⟩
  | t :: rest =>
    if hasAdapter t.tool ∧ ¬ installed t.tool then
      syncCopyTargets hasAdapter installed sync now rest
    else if t.mode = "copy" ∨ t.tool = "cursor" then
      match sync t with
      | .error e => ⟨[], [], some e⟩
      | .ok targetPath =>
        let written : SkillTargetRecord :=
          { id := t.id, skill_id := t.skill_id, tool := t.tool
            target_path := targetPath, mode := "copy", status := "ok"
            last_error := none, synced_at := some now }
        let tail := syncCopyTargets hasAdapter installed sync now rest
        ⟨written :: tail.upserts, t.tool :: tail.updatedTargets, tail.err⟩
    else
      syncCopyTargets hasAdapter installed sync now rest

/-! ## Install flows (`install_local_skill`, `install_git_skill`) -/

/-- Outcome of an install call: the surfaced error (if any), the final
content at the destination path under the canonical root, and whether a
copy into the canonical root, a registry upsert, or a network fetch
happened. -/
structure InstallOutcome where
  result : Except String Unit
  finalDest : Option String
  copiedToCentral : Bool
  upsertedRecord : Bool
  fetched : Bool
  deriving Repr

/-- `install_local_skill` (`core/installer.rs`): fails when the source
path is missing; fails when the destination under the canonical root
already exists, leaving the existing content untouched; otherwise
copies the source tree there and upserts a record. `dest` is the
current content at `central_path` (`none` when absent) and
`sourceContent` the content behind `source_path`. -/
def installLocalSkill (sourceExists : Bool) (dest : Option String)
    (sourceContent : String) : InstallOutcome :=
  if ¬ sourceExists then
    ⟨.error "source path not found", dest, false, false, false⟩
  else
    match dest with
    | some c => ⟨.error "skill already exists in central repo", some c, false, false, false⟩
    | none => ⟨.ok (), some sourceContent, true, true, false⟩

/-- The repository directory produced by a successful fetch, as
`install_git_skill` inspects it: whether `skills/` exists, how many of
its subdirectories contain a `SKILL.md`, the content behind the parsed
subpath (`none` when the subpath is missing), and the repository root
content. -/
structure FetchedRepo where
  skillsDirExists : Bool
  skillsWithSkillMd : Nat
  subpathContent : Option String
  rootContent : String
  deriving Repr, DecidableEq

/-- The `MULTI_SKILLS` error raised by `install_git_skill` for a
repo-root reference to a multi-skill repository. -/
def multiSkillsError : String :=
  "MULTI_SKILLS|该仓库包含多个 Skills，请复制具体 Skill 文件夹链接（例如 GitHub 的 /tree/<branch>/skills/<name>），再导入。"

/-- `install_git_skill` (`core/installer.rs`) after reference parsing:
the destination-exists check runs before any fetch; on a repo-root
reference (no subpath) a `skills/` directory holding two or more
`SKILL.md`-bearing subdirectories fails with the `MULTI_SKILLS` error
before anything is copied; a subpath reference fails when the subpath
is missing from the repo; otherwise the selected directory is copied to
the canonical root and a record upserted. -/
def installGitSkill (subpath : Option String) (dest : Option String)
    (fetchResult : Except String FetchedRepo) : InstallOutcome :=
  match dest with
  | some c => ⟨.error "skill already exists in central repo", some c, false, false, false⟩
  | none =>
    match fetchResult with
    | .error e => ⟨.error e, none, false, false, true⟩
    | .ok repo =>
      match subpath with
      | some _ =>
        match repo.subpathContent with
        | none => ⟨.error "subpath not found in repo", none, false, false, true⟩
        | some c => ⟨.ok (), some c, true, true, true⟩
      | none =>
        if repo.skillsDirExists ∧ 2 ≤ repo.skillsWithSkillMd then
          ⟨.error multiSkillsError, none, false, false, true⟩
        else
          ⟨.ok (), some repo.rootContent, true, true, true⟩

/-! ## Descriptor file validation (`parse_skill_md_with_reason`) -/

/-- Strip one trailing carriage return, for a line that was terminated
by `\n` (Rust `str::lines` treats `\r\n` as one terminator). -/
def stripOneCR (l : Str) : Str :=
  if l.getLast? = some '\x0d' then l.dropLast else l

/-- Helper for `rustLines`: every piece but the last was terminated by a
newline and loses one trailing `\r`; a final empty piece (from a
trailing newline, or an empty file) is not a line. -/
def rustLinesAux : List Str → List Str
  | [] => []
  | [last] => if last = [] then [] else [last]
  | p :: rest => stripOneCR p :: rustLinesAux rest

/-- Model of Rust `str::lines`. -/
def rustLines (s : Str) : List Str :=
  rustLinesAux (splitOnChar '\x0a' s)

/-- Model of Rust `str::strip_prefix`: the remainder after a literal
leading pattern, when present. -/
def stripLeading (p s : Str) : Option Str :=
  if p.isPrefixOf s then some (s.drop p.length) else none

/-- Model of Rust `str::trim_matches(c)`: removes every leading and
trailing occurrence of `c`. -/
def trimMatchesChar (c : Char) (s : Str) : Str :=
  trimEndChar c (s.dropWhile (fun x => x = c))

/-- The `"---"` frontmatter marker. -/
def fmDashes : Str := ['-', '-', '-']

/-- The `"name:"` field key. -/
def fmNameKey : Str := ['n', 'a', 'm', 'e', ':']

/-- The `"description:"` field key. -/
def fmDescKey : Str := ['d', 'e', 's', 'c', 'r', 'i', 'p', 't', 'i', 'o', 'n', ':']

/-- A frontmatter field value as stored by the Rust parser:
`v.trim().trim_matches('"')`. -/
def fmFieldValue (v : Str) : Str :=
  trimMatchesChar '"' (rustTrim v)

/-- The scanning loop of `parse_skill_md_with_reason`
(`core/installer.rs`): walks the lines after the opening marker with the
mutable `name`/`desc` accumulators, stopping at the first line that
trims to `---` (`found_end`). -/
def frontmatterScan : List Str → Option Str → Option Str →
    Option Str × Option Str × Bool
  | [], name, desc => (name, desc, false)
  | l :: rest, name, desc =>
    if rustTrim l = fmDashes then (name, desc, true)
    else
      match stripLeading fmNameKey (rustTrim l) with
      | some v => frontmatterScan rest (some (fmFieldValue v)) desc
      | none =>
        match stripLeading fmDescKey (rustTrim l) with
        | some v => frontmatterScan rest name (some (fmFieldValue v))
        | none => frontmatterScan rest name desc

/-- `parse_skill_md_with_reason` from `core/installer.rs`. `fileText` is
the outcome of `fs::read_to_string` (`none` on a read failure). The
first line must trim to `---`; the scan must find a closing `---`
(else `invalid_frontmatter`); a `name:` field must have been seen
(else `missing_name`). -/
def parse_skill_md_with_reason : Option Str → Except String (Str × Option Str)
  | none => .error "read_failed"
  | some text =>
    match rustLines text with
    | [] => .error "invalid_frontmatter"
    | l0 :: rest =>
      if rustTrim l0 = fmDashes then
        match frontmatterScan rest none none with
        | (some n, desc, true) => .ok (n, desc)
        | (none, _, true) => .error "missing_name"
        | (_, _, false) => .error "invalid_frontmatter"
      else .error "invalid_frontmatter"

/-- The last `name:` value that a dash-free line block leaves in the
accumulator, starting from `n0` (specification-side companion of the
scan). -/
def fmNameFold (n0 : Option Str) (pre : List Str) : Option Str :=
  pre.foldl
    (fun acc l =>
      match stripLeading fmNameKey (rustTrim l) with
      | some v => some (fmFieldValue v)
      | none => acc)
    n0

/-! ## Cache key (`repo_cache_key` in `core/installer.rs`)

The key is `hex::encode(sha256(url_bytes ++ "\n" ++ branch_bytes))`,
with the branch bytes fed to the hasher only when a branch is present.
SHA-256 is embedded executably over `Nat` words reduced mod `2^32`. -/

/-- Truncate to a 32-bit word. -/
def w32 (x : Nat) : Nat := x % 4294967296

/-- 32-bit rotate right. -/
def rotr32 (k x : Nat) : Nat := w32 ((x >>> k) ||| (x <<< (32 - k)))

/-- SHA-256 Σ0. -/
def bigSigma0 (x : Nat) : Nat := (rotr32 2 x) ^^^ (rotr32 13 x) ^^^ (rotr32 22 x)

/-- SHA-256 Σ1. -/
def bigSigma1 (x : Nat) : Nat := (rotr32 6 x) ^^^ (rotr32 11 x) ^^^ (rotr32 25 x)

/-- SHA-256 σ0. -/
def smallSigma0 (x : Nat) : Nat := (rotr32 7 x) ^^^ (rotr32 18 x) ^^^ (x >>> 3)

/-- SHA-256 σ1. -/
def smallSigma1 (x : Nat) : Nat := (rotr32 17 x) ^^^ (rotr32 19 x) ^^^ (x >>> 10)

/-- SHA-256 Ch. -/
def chNat (x y z : Nat) : Nat := (x &&& y) ^^^ ((x ^^^ 4294967295) &&& z)

/-- SHA-256 Maj. -/
def majNat (x y z : Nat) : Nat := (x &&& y) ^^^ (x &&& z) ^^^ (y &&& z)

/-- The eight 32-bit working variables. -/
structure Sha256State where
  a : Nat
  b : Nat
  c : Nat
  d : Nat
  e : Nat
  f : Nat
  g : Nat
  h : Nat
  deriving Repr, DecidableEq

/-- SHA-256 round constants. -/
def sha256K : List Nat :=
  [1116352408, 1899447441, 3049323471, 3921009573,
   961987163, 1508970993, 2453635748, 2870763221,
   3624381080, 310598401, 607225278, 1426881987,
   1925078388, 2162078206, 2614888103, 3248222580,
   3835390401, 4022224774, 264347078, 604807628,
   770255983, 1249150122, 1555081692, 1996064986,
   2554220882, 2821834349, 2952996808, 3210313671,
   3336571891, 3584528711, 113926993, 338241895,
   666307205, 773529912, 1294757372, 1396182291,
   1695183700, 1986661051, 2177026350, 2456956037,
   2730485921, 2820302411, 3259730800, 3345764771,
   3516065817, 3600352804, 4094571909, 275423344,
   430227734, 506948616, 659060556, 883997877,
   958139571, 1322822218, 1537002063, 1747873779,
   1955562222, 2024104815, 2227730452, 2361852424,
   2428436474, 2756734187, 3204031479, 3329325298]

/-- SHA-256 initial state. -/
def sha256Init : Sha256State :=
  ⟨1779033703, 3144134277, 1013904242, 2773480762,
   1359893119, 2600822924, 528734635, 1541459225⟩

/-- Big-endian bytes to 32-bit words. -/
def bytesToWords : List Nat → List Nat
  | b0 :: b1 :: b2 :: b3 :: rest =>
    (b0 * 16777216 + b1 * 65536 + b2 * 256 + b3) :: bytesToWords rest
  | _ => []

/-- The next word of the message schedule. -/
def extendScheduleStep (w : List Nat) : Nat :=
  w32 (smallSigma1 (w.getD (w.length - 2) 0) + w.getD (w.length - 7) 0 +
    smallSigma0 (w.getD (w.length - 15) 0) + w.getD (w.length - 16) 0)

/-- Extend the 16-word block to the 64-word schedule. -/
def extendSchedule (w : List Nat) : List Nat :=
  if h : w.length < 64 then extendSchedule (w ++ [extendScheduleStep w]) else w
termination_by 64 - w.length
decreasing_by simp only [List.length_append, List.length_cons, List.length_nil]; omega

/-- One SHA-256 compression round. -/
def compressRound (s : Sha256State) (kw : Nat × Nat) : Sha256State :=
  let t1 := w32 (s.h + bigSigma1 s.e + chNat s.e s.f s.g + kw.1 + kw.2)
  let t2 := w32 (bigSigma0 s.a + majNat s.a s.b s.c)
  ⟨w32 (t1 + t2), s.a, s.b, s.c, w32 (s.d + t1), s.e, s.f, s.g⟩

/-- Process one 64-byte block. -/
def processBlock (s : Sha256State) (block : List Nat) : Sha256State :=
  let w := extendSchedule (bytesToWords block)
  let t := (sha256K.zip w).foldl compressRound s
  ⟨w32 (s.a + t.a), w32 (s.b + t.b), w32 (s.c + t.c), w32 (s.d + t.d),
   w32 (s.e + t.e), w32 (s.f + t.f), w32 (s.g + t.g), w32 (s.h + t.h)⟩

/-- A 64-bit length in big-endian bytes. -/
def word64Bytes (n : Nat) : List Nat :=
  [n / 2 ^ 56 % 256, n / 2 ^ 48 % 256, n / 2 ^ 40 % 256, n / 2 ^ 32 % 256,
   n / 2 ^ 24 % 256, n / 2 ^ 16 % 256, n / 2 ^ 8 % 256, n % 256]

/-- SHA-256 message padding. -/
def sha256Pad (msg : List Nat) : List Nat :=
  msg ++ [128] ++ List.replicate ((119 - msg.length % 64) % 64) 0 ++
    word64Bytes (msg.length * 8)

/-- Split a byte list into 64-byte chunks. -/
def chunks64 (l : List Nat) : List (List Nat) :=
  if h : l = [] then [] else l.take 64 :: chunks64 (l.drop 64)
termination_by l.length
decreasing_by
  simp only [List.length_drop]
  cases l
  · exact absurd rfl h
  · simp only [List.length_cons]
    omega

/-- A 32-bit word in big-endian bytes. -/
def wordBytes (w : Nat) : List Nat :=
  [w / 16777216 % 256, w / 65536 % 256, w / 256 % 256, w % 256]

/-- Serialize the final state (always 32 bytes). -/
def sha256Digest (s : Sha256State) : List Nat :=
  wordBytes s.a ++ wordBytes s.b ++ wordBytes s.c ++ wordBytes s.d ++
  wordBytes s.e ++ wordBytes s.f ++ wordBytes s.g ++ wordBytes s.h

/-- SHA-256 of a byte list. -/
def sha256 (msg : List Nat) : List Nat :=
  sha256Digest ((chunks64 (sha256Pad msg)).foldl processBlock sha256Init)

/-- One lowercase hex digit. -/
def hexDigit (n : Nat) : Char :=
  if n < 10 then Char.ofNat (48 + n) else Char.ofNat (87 + n)

/-- Model of `hex::encode`: two lowercase hex digits per byte. -/
def hexEncode : List Nat → Str
  | [] => []
  | b :: bs => hexDigit (b / 16 % 16) :: hexDigit (b % 16) :: hexEncode bs

/-- UTF-8 encoding of one scalar value (Rust `str::as_bytes` feeds the
hasher UTF-8 bytes). -/
def utf8EncodeChar (c : Char) : List Nat :=
  if c.toNat < 128 then [c.toNat]
  else if c.toNat < 2048 then [192 + c.toNat / 64, 128 + c.toNat % 64]
  else if c.toNat < 65536 then
    [224 + c.toNat / 4096, 128 + c.toNat / 64 % 64, 128 + c.toNat % 64]
  else
    [240 + c.toNat / 262144, 128 + c.toNat / 4096 % 64,
     128 + c.toNat / 64 % 64, 128 + c.toNat % 64]

/-- UTF-8 bytes of a string. -/
def strBytes : Str → List Nat
  | [] => []
  | c :: cs => utf8EncodeChar c ++ strBytes cs

/-- The bytes fed to the hasher by `repo_cache_key`
(`core/installer.rs`): the clone URL, one newline byte, then the branch
bytes only when a branch is present — an absent branch and an empty
branch feed identical input. -/
def repoCacheKeyBytes (cloneUrl : Str) (branch : Option Str) : List Nat :=
  strBytes cloneUrl ++ [10] ++
    (match branch with
     | some b => strBytes b
     | none => [])

/-- `repo_cache_key` from `core/installer.rs`:
`hex::encode(Sha256(clone_url, "\n", branch?))`. -/
def repo_cache_key (cloneUrl : Str) (branch : Option Str) : Str :=
  hexEncode (sha256 (repoCacheKeyBytes cloneUrl branch))

/-! ## Source resolver (`parse_github_url`, `looks_like_github_shorthand`
in `core/installer.rs`) -/

/-- The parsed source triple (`ParsedGitSource` in `core/installer.rs`). -/
structure ParsedGitSource where
  clone_url : Str
  branch : Option Str
  subpath : Option Str
  deriving Repr, DecidableEq

/-- The characters of `"https://github.com/"`. -/
def ghHttps : Str :=
  ['h', 't', 't', 'p', 's', ':', '/', '/', 'g', 'i', 't', 'h', 'u', 'b', '.', 'c', 'o', 'm', '/']

/-- The characters of `"http://github.com/"`. -/
def ghHttp : Str :=
  ['h', 't', 't', 'p', ':', '/', '/', 'g', 'i', 't', 'h', 'u', 'b', '.', 'c', 'o', 'm', '/']

/-- The characters of `"github.com/"`. -/
def ghBare : Str := ['g', 'i', 't', 'h', 'u', 'b', '.', 'c', 'o', 'm', '/']

/-- The characters of `"github.com"` (the bare host without slash). -/
def ghBareHost : Str := ['g', 'i', 't', 'h', 'u', 'b', '.', 'c', 'o', 'm']

/-- The characters of `"https://"`. -/
def httpsScheme : Str := ['h', 't', 't', 'p', 's', ':', '/', '/']

/-- The characters of `"://"`. -/
def schemeSep : Str := [':', '/', '/']

/-- The characters of `".git"`. -/
def gitSuffix : Str := ['.', 'g', 'i', 't']

/-- The characters of `"tree"`. -/
def treeSeg : Str := ['t', 'r', 'e', 'e']

/-- The characters of `"blob"`. -/
def blobSeg : Str := ['b', 'l', 'o', 'b']

/-- The safe character class of `looks_like_github_shorthand`:
`is_ascii_alphanumeric`, `-`, `_` or `.` (Lean's `Char.isAlphanum`
checks exactly the ASCII ranges). -/
def isSafeChar (c : Char) : Bool :=
  c.isAlphanum || c = '-' || c = '_' || c = '.'

/-- Substring containment of a pattern (model of Rust
`str::contains("://")`): the pattern is a prefix of some tail. -/
def containsSeq (pat : Str) : Str → Bool
  | [] => pat.isPrefixOf []
  | c :: rest => pat.isPrefixOf (c :: rest) || containsSeq pat rest

/-- Fueled core of `trim_end_matches(".git")`: each step removes one
trailing `".git"`. The fuel `s.length` always suffices because each
step needs at least four characters. -/
def trimEndGitFuel : Nat → Str → Str
  | 0, s => s
  | fuel + 1, s =>
    if gitSuffix.isSuffixOf s then trimEndGitFuel fuel (s.take (s.length - 4))
    else s

/-- Model of Rust `repo.trim_end_matches(".git")`. -/
def trimEndGit (s : Str) : Str := trimEndGitFuel s.length s

/-- The segment checks of `looks_like_github_shorthand` on the parts of
the slash-split reference: both leading segments non-empty and non-dot,
safe-charactered (the repo after dropping trailing `.git`), any third
segment `tree` or `blob`. -/
def shorthandSegments : List Str → Bool
  | owner :: repo :: restParts =>
    if owner = [] || repo = [] || owner = ['.'] || owner = ['.', '.'] ||
        repo = ['.'] || repo = ['.', '.'] then false
    else if !(owner.all isSafeChar && (trimEndGit repo).all isSafeChar) then false
    else
      match restParts with
      | [] => true
      | p2 :: _ => p2 = treeSeg || p2 = blobSeg
  | _ => false

/-- The character-level checks of `looks_like_github_shorthand`: `c` is
the first character of `input`; no leading `/`, `~` or `.`, no scheme
marker, no `@`, no `:`. -/
def shorthandChecks (c : Char) (input : Str) : Bool :=
  if c = '/' || c = '~' || c = '.' then false
  else if containsSeq schemeSep input || input.contains '@' || input.contains ':' then
    false
  else shorthandSegments (splitOnChar '/' input)

/-- `looks_like_github_shorthand` from `core/installer.rs`, assembled
from the checks above (an empty reference is rejected). -/
def looks_like_github_shorthand (input : Str) : Bool :=
  match input with
  | [] => false
  | c :: _ => shorthandChecks c input

/-- The prefix-upgrade rules of `parse_github_url`: keep an
`https://github.com/` reference, rewrite `http://github.com/` to the
https form (the Rust `replacen(.., 1)` is guarded by `starts_with`, so
it is a prefix replacement), prepend `https://` to a bare
`github.com/` reference, expand the shorthand, else pass through. -/
def applyPrefixRules (trimmed : Str) : Str :=
  if ghHttps.isPrefixOf trimmed then trimmed
  else if ghHttp.isPrefixOf trimmed then ghHttps ++ trimmed.drop ghHttp.length
  else if ghBare.isPrefixOf trimmed then httpsScheme ++ trimmed
  else if looks_like_github_shorthand trimmed then ghHttps ++ trimmed
  else trimmed

/-- The reference normalization at the top of `parse_github_url`: trim
whitespace, drop trailing slashes, apply the prefix rules, and drop
trailing slashes again. -/
def normalizeRef (input : Str) : Str :=
  trimEndChar '/' (applyPrefixRules (trimEndChar '/' (rustTrim input)))

/-- One `.git` suffix stripped from the repo segment
(`repo.strip_suffix(".git")` with fallback). -/
def stripOneGit (repo0 : Str) : Str :=
  if gitSuffix.isSuffixOf repo0 then repo0.take (repo0.length - 4) else repo0

/-- The extraction phase of `parse_github_url` on the slash-split
segments after `https://github.com/`: the first two segments are owner
and repo (one trailing `.git` stripped); a `tree`/`blob` third segment
yields the branch and the re-joined subpath. Fewer than two segments
pass the whole `trimmed` reference through. -/
def parseSegments (trimmed : Str) : List Str → ParsedGitSource
  | owner :: repo0 :: restParts =>
    (match restParts with
     | p2 :: branch :: sub =>
       if p2 = treeSeg || p2 = blobSeg then
         { clone_url := ghHttps ++ owner ++ '/' :: stripOneGit repo0 ++ gitSuffix
           branch := some branch
           subpath :=
             match sub with
             | [] => none
             | _ => some (intercalateChar '/' sub) }
       else
         { clone_url := ghHttps ++ owner ++ '/' :: stripOneGit repo0 ++ gitSuffix
           branch := none, subpath := none }
     | _ =>
       { clone_url := ghHttps ++ owner ++ '/' :: stripOneGit repo0 ++ gitSuffix
         branch := none, subpath := none })
  | _ => { clone_url := trimmed, branch := none, subpath := none }

/-- The extraction phase of `parse_github_url`: anything not in the
`https://github.com/` form passes through unchanged. -/
def parseNormalized (trimmed : Str) : ParsedGitSource :=
  if ghHttps.isPrefixOf trimmed then
    parseSegments trimmed (splitOnChar '/' (trimmed.drop ghHttps.length))
  else { clone_url := trimmed, branch := none, subpath := none }

/-- `parse_github_url` from `core/installer.rs`. -/
def parse_github_url (input : Str) : ParsedGitSource :=
  parseNormalized (normalizeRef input)

/-- A non-empty segment of safe characters (the owner/repo segments the
claims quantify over). -/
def SafeSeg (s : Str) : Prop := s ≠ [] ∧ ∀ c ∈ s, isSafeChar c = true

/-- The owner segments for which the claimed resolution holds: safe,
not starting with a dot (the Rust recognizer rejects references
starting with `.`), and not the literal `github.com` (which the bare
prefix rule captures first). -/
def OwnerOk (o : Str) : Prop :=
  SafeSeg o ∧ o.head? ≠ some '.' ∧ o ≠ ghBareHost

/-- The repo segments for which the claimed resolution holds: safe, not
a dot segment, and without a `.git` suffix (which the parser would
strip, changing the canonical URL). -/
def RepoOk (r : Str) : Prop :=
  SafeSeg r ∧ r ≠ ['.'] ∧ r ≠ ['.', '.'] ∧ gitSuffix.isSuffixOf r = false

/-! ## Theorems -/

/-- Claim C9: a successful update writes back a record that keeps `id`,
`name`, `source_type`, `source_ref`, `central_path`, `created_at` and
`last_sync_at` unchanged; `content_hash`, `metadata`, `status`,
`updated_at` and `last_seen_at` are refreshed, and `source_revision`
takes the newly resolved revision when one is available and is left
unchanged otherwise. -/
theorem update_record_frame (record : SkillRecord) (new_revision : Option String)
    (now : Int) (content_hash : Option String) (metadata : Option SkillMetadata) :
    (updatedSkillRecord record new_revision now content_hash metadata).id = record.id ∧
    (updatedSkillRecord record new_revision now content_hash metadata).name = record.name ∧
    (updatedSkillRecord record new_revision now content_hash metadata).source_type = record.source_type ∧
    (updatedSkillRecord record new_revision now content_hash metadata).source_ref = record.source_ref ∧
    (updatedSkillRecord record new_revision now content_hash metadata).central_path = record.central_path ∧
    (updatedSkillRecord record new_revision now content_hash metadata).created_at = record.created_at ∧
    (updatedSkillRecord record new_revision now content_hash metadata).last_sync_at = record.last_sync_at ∧
    (updatedSkillRecord record new_revision now content_hash metadata).content_hash = content_hash ∧
    (updatedSkillRecord record new_revision now content_hash metadata).metadata = metadata ∧
    (updatedSkillRecord record new_revision now content_hash metadata).status = "ok" ∧
    (updatedSkillRecord record new_revision now content_hash metadata).updated_at = now ∧
    (updatedSkillRecord record new_revision now content_hash metadata).last_seen_at = now ∧
    (new_revision = none →
      (updatedSkillRecord record new_revision now content_hash metadata).source_revision
        = record.source_revision) ∧
    (∀ r, new_revision = some r →
      (updatedSkillRecord record new_revision now content_hash metadata).source_revision
        = some r) := by
  refine ⟨rfl, rfl, rfl, rfl, rfl, rfl, rfl, rfl, rfl, rfl, rfl, rfl, ?_, ?_⟩
  · intro h
    simp [updatedSkillRecord, h, Option.or]
  · intro r h
    simp [updatedSkillRecord, h, Option.or]

/-- Witness for C9 at a concrete record: with no new revision the stored
`source_revision` is unchanged. -/
theorem update_record_frame_witness :
    (updatedSkillRecord
      { id := "i", name := "n", source_type := "git", source_ref := some "u"
        source_revision := some "r0", central_path := "/c", content_hash := none
        created_at := 1, updated_at := 2, last_sync_at := none, last_seen_at := 3
        status := "ok", metadata := none }
      none 5 none none).source_revision = some "r0" := by
  have h := update_record_frame
    { id := "i", name := "n", source_type := "git", source_ref := some "u"
      source_revision := some "r0", central_path := "/c", content_hash := none
      created_at := 1, updated_at := 2, last_sync_at := none, last_seen_at := 3
      status := "ok", metadata := none }
    none 5 none none
  exact h.2.2.2.2.2.2.2.2.2.2.2.2.1 rfl

/-- Claim C7: a group conflicts exactly when the variants that do have a
fingerprint carry more than one distinct fingerprint value; variants
whose fingerprinting failed are excluded, and a group with no
fingerprinted variant is non-conflicting. -/
theorem onboarding_conflict_iff (name : String)
    (variants : List OnboardingVariant) :
    ((onboardingGroupOf name variants).has_conflict = true ↔
      1 < ((variants.filterMap (fun v => v.fingerprint)).toFinset).card) ∧
    ((variants.filterMap (fun v => v.fingerprint)) = [] →
      (onboardingGroupOf name variants).has_conflict = false) := by
  constructor
  · rw [List.card_toFinset]
    unfold onboardingGroupOf
    by_cases h : ((variants.filterMap (fun v => v.fingerprint)).dedup).length = 0
    · simp [h]
    · simp [h]
  · intro h
    unfold onboardingGroupOf
    simp [h]

/-- Witness for C7 at concrete inputs: one fingerprint failure plus two
byte-identical fingerprints is a non-conflicting group. -/
theorem onboarding_conflict_iff_witness :
    (onboardingGroupOf "foo"
      [{ tool := "cursor", name := "foo", path := "/a", fingerprint := some "h1"
         is_link := false, link_target := none },
       { tool := "codex", name := "foo", path := "/b", fingerprint := none
         is_link := false, link_target := none },
       { tool := "claude", name := "foo", path := "/c", fingerprint := some "h1"
         is_link := false, link_target := none }]).has_conflict = false := by
  have h := onboarding_conflict_iff "foo"
    [{ tool := "cursor", name := "foo", path := "/a", fingerprint := some "h1"
       is_link := false, link_target := none },
     { tool := "codex", name := "foo", path := "/b", fingerprint := none
       is_link := false, link_target := none },
     { tool := "claude", name := "foo", path := "/c", fingerprint := some "h1"
       is_link := false, link_target := none }]
  have hnot : ¬ (1 < (([some "h1", none, some "h1"].filterMap id).toFinset).card) := by decide
  revert hnot
  simp only [List.filterMap]
  intro hnot
  cases hcf : (onboardingGroupOf "foo" _).has_conflict
  · rfl
  · exact absurd (h.1.mp hcf) (by decide)

/-- Saturating clamp is the identity inside the `i64` range. -/
theorem satI64_eq_self (x : Int) (h1 : i64Min ≤ x) (h2 : x ≤ i64Max) :
    satI64 x = x := by
  unfold satI64 i64Min i64Max at *
  omega

/-- A non-positive input stays non-positive after clamping. -/
theorem satI64_nonpos (x : Int) (h : x ≤ 0) : satI64 x ≤ 0 := by
  unfold satI64 i64Min i64Max
  omega

/-- Reduction: a fresh cache short-circuits `clone_to_cache`. -/
theorem cloneToCache_of_fresh (g r : Bool) (meta : Option RepoCacheMeta)
    (ttl now : Int) (fetch : Nat → Except String String) (head : String)
    (hf : cacheFresh g meta ttl now = some head) :
    cloneToCache g r meta ttl now fetch
      = ⟨.ok head, true, 0, false, none⟩ := by
  unfold cloneToCache
  rw [hf]

/-- Reduction: stale cache, first fetch succeeds. -/
theorem cloneToCache_stale_ok (g r : Bool) (meta : Option RepoCacheMeta)
    (ttl now : Int) (fetch : Nat → Except String String) (rev : String)
    (hf : cacheFresh g meta ttl now = none) (h0 : fetch 0 = .ok rev) :
    cloneToCache g r meta ttl now fetch
      = ⟨.ok rev, false, 1, false, some ⟨now, some rev⟩⟩ := by
  unfold cloneToCache
  rw [hf, h0]

/-- Reduction: stale cache, first fetch fails, retry succeeds. -/
theorem cloneToCache_stale_retry_ok (g r : Bool) (meta : Option RepoCacheMeta)
    (ttl now : Int) (fetch : Nat → Except String String) (e1 rev : String)
    (hf : cacheFresh g meta ttl now = none) (h0 : fetch 0 = .error e1)
    (h1 : fetch 1 = .ok rev) :
    cloneToCache g r meta ttl now fetch
      = ⟨.ok rev, false, 2, r, some ⟨now, some rev⟩⟩ := by
  unfold cloneToCache
  rw [hf, h0, h1]

/-- Reduction: stale cache, both fetches fail. -/
theorem cloneToCache_stale_err (g r : Bool) (meta : Option RepoCacheMeta)
    (ttl now : Int) (fetch : Nat → Except String String) (e1 e2 : String)
    (hf : cacheFresh g meta ttl now = none) (h0 : fetch 0 = .error e1)
    (h1 : fetch 1 = .error e2) :
    cloneToCache g r meta ttl now fetch
      = ⟨.error e2, false, 2, r, none⟩ := by
  unfold cloneToCache
  rw [hf, h0, h1]

/-- On a stale cache the clone is never served from cache. -/
theorem usedCache_false_of_stale (g r : Bool) (meta : Option RepoCacheMeta)
    (ttl now : Int) (fetch : Nat → Except String String)
    (hf : cacheFresh g meta ttl now = none) :
    (cloneToCache g r meta ttl now fetch).usedCache = false ∧
    1 ≤ (cloneToCache g r meta ttl now fetch).fetchAttempts := by
  rcases h0 : fetch 0 with e1 | rev
  · rcases h1 : fetch 1 with e2 | rev
    · rw [cloneToCache_stale_err g r meta ttl now fetch e1 e2 hf h0 h1]
      exact ⟨rfl, by simp⟩
    · rw [cloneToCache_stale_retry_ok g r meta ttl now fetch e1 rev hf h0 h1]
      exact ⟨rfl, by simp⟩
  · rw [cloneToCache_stale_ok g r meta ttl now fetch rev hf h0]
    exact ⟨rfl, by simp⟩

/-- Inversion of the freshness decision. -/
theorem cacheFresh_some_inv (g : Bool) (meta : Option RepoCacheMeta)
    (ttl now : Int) (head : String)
    (hf : cacheFresh g meta ttl now = some head) :
    g = true ∧ ∃ m, meta = some m ∧ m.head = some head ∧
      0 < i64SaturatingMul ttl 1000 ∧
      i64SaturatingSub now m.last_fetched_ms < i64SaturatingMul ttl 1000 := by
  rcases g with _ | _
  · simp [cacheFresh] at hf
  · rcases meta with _ | ⟨last, _ | h⟩
    · simp [cacheFresh] at hf
    · simp [cacheFresh] at hf
    · simp only [cacheFresh] at hf
      split_ifs at hf with hc
      exact ⟨rfl, ⟨last, some h⟩, rfl, hf, hc.1, hc.2⟩

/-- Construction of the freshness decision. -/
theorem cacheFresh_some_of (meta : Option RepoCacheMeta) (m : RepoCacheMeta)
    (ttl now : Int) (head : String)
    (hm : meta = some m) (hh : m.head = some head)
    (hc1 : 0 < i64SaturatingMul ttl 1000)
    (hc2 : i64SaturatingSub now m.last_fetched_ms < i64SaturatingMul ttl 1000) :
    cacheFresh true meta ttl now = some head := by
  rcases m with ⟨last, hd⟩
  cases hh
  rw [hm]
  simp only [cacheFresh]
  rw [if_pos ⟨hc1, hc2⟩]

/-- The freshness decision always fails with a non-positive TTL. -/
theorem cacheFresh_none_of_nonpos_ttl (g : Bool) (meta : Option RepoCacheMeta)
    (ttl now : Int) (hneg : ttl ≤ 0) :
    cacheFresh g meta ttl now = none := by
  rcases hf : cacheFresh g meta ttl now with _ | head
  · rfl
  · exfalso
    have h := cacheFresh_some_inv g meta ttl now head hf
    rcases h with ⟨-, m, -, -, hc1, -⟩
    have hle : ttl * 1000 ≤ 0 := by nlinarith
    have := satI64_nonpos (ttl * 1000) hle
    unfold i64SaturatingMul at hc1
    omega

/-- Under realistic i64 bounds the saturating conversions are exact. -/
theorem sat_exact (ttl now last : Int) (hnow : |now| ≤ 2 ^ 61)
    (hlast : |last| ≤ 2 ^ 61) (httlHigh : ttl ≤ 2 ^ 52) (httlLow : -(2 ^ 52) ≤ ttl) :
    i64SaturatingMul ttl 1000 = ttl * 1000 ∧
    i64SaturatingSub now last = now - last := by
  constructor
  · unfold i64SaturatingMul
    apply satI64_eq_self
    · unfold i64Min
      nlinarith
    · unfold i64Max
      nlinarith
  · unfold i64SaturatingSub
    apply satI64_eq_self
    · unfold i64Min
      simp only [abs_le] at *
      omega
    · unfold i64Max
      simp only [abs_le] at *
      omega

/-- Claim C2: for an existing cached clone and a positive TTL, the clone
is reused without invoking the fetch capability iff the marker file
parsed with a non-null `head` and `now - last_fetched_ms` is below the
TTL in milliseconds; and with a zero or negative TTL the cache is never
reused and at least one fetch runs. (The bound hypotheses keep the
saturating i64 arithmetic exact.) -/
theorem cache_reuse_iff (repoDirExists : Bool)
    (meta : Option RepoCacheMeta) (ttlSecs now : Int)
    (fetch : Nat → Except String String)
    (hnow : |now| ≤ 2 ^ 61)
    (hmeta : ∀ m, meta = some m → |m.last_fetched_ms| ≤ 2 ^ 61)
    (httl : ttlSecs ≤ 2 ^ 52) :
    (0 < ttlSecs →
      (((cloneToCache true repoDirExists meta ttlSecs now fetch).usedCache = true) ↔
        (∃ m h, meta = some m ∧ m.head = some h ∧
          now - m.last_fetched_ms < ttlSecs * 1000))) ∧
    ((cloneToCache true repoDirExists meta ttlSecs now fetch).usedCache = true →
      (cloneToCache true repoDirExists meta ttlSecs now fetch).fetchAttempts = 0 ∧
      ∃ m h, meta = some m ∧ m.head = some h ∧
        (cloneToCache true repoDirExists meta ttlSecs now fetch).result = .ok h) ∧
    (ttlSecs ≤ 0 →
      (cloneToCache true repoDirExists meta ttlSecs now fetch).usedCache = false ∧
      1 ≤ (cloneToCache true repoDirExists meta ttlSecs now fetch).fetchAttempts) := by
  refine ⟨?_, ?_, ?_⟩
  · intro hpos
    constructor
    · intro hused
      rcases hf : cacheFresh true meta ttlSecs now with _ | head
      · have := (usedCache_false_of_stale true repoDirExists meta ttlSecs now fetch hf).1
        rw [this] at hused
        exact absurd hused (by simp)
      · rcases cacheFresh_some_inv true meta ttlSecs now head hf with
          ⟨-, m, hm, hh, -, hc2⟩
        have hex := sat_exact ttlSecs now m.last_fetched_ms hnow (hmeta m hm) httl
          (by omega)
        rw [hex.1, hex.2] at hc2
        exact ⟨m, head, hm, hh, hc2⟩
    · rintro ⟨m, h, hm, hh, hlt⟩
      have hex := sat_exact ttlSecs now m.last_fetched_ms hnow (hmeta m hm) httl
        (by omega)
      have hf : cacheFresh true meta ttlSecs now = some h := by
        apply cacheFresh_some_of meta m ttlSecs now h hm hh
        · rw [hex.1]
          nlinarith
        · rw [hex.1, hex.2]
          exact hlt
      rw [cloneToCache_of_fresh true repoDirExists meta ttlSecs now fetch h hf]
  · intro hused
    rcases hf : cacheFresh true meta ttlSecs now with _ | head
    · have := (usedCache_false_of_stale true repoDirExists meta ttlSecs now fetch hf).1
      rw [this] at hused
      exact absurd hused (by simp)
    · rcases cacheFresh_some_inv true meta ttlSecs now head hf with ⟨-, m, hm, hh, -, -⟩
      rw [cloneToCache_of_fresh true repoDirExists meta ttlSecs now fetch head hf]
      exact ⟨rfl, m, head, hm, hh, rfl⟩
  · intro hneg
    exact usedCache_false_of_stale true repoDirExists meta ttlSecs now fetch
      (cacheFresh_none_of_nonpos_ttl true meta ttlSecs now hneg)

/-- Witness for C2 at concrete inputs: a fresh marker is reused with no
fetch, and a zero TTL forces a refetch. -/
theorem cache_reuse_iff_witness :
    ((cloneToCache true true (some { last_fetched_ms := 500, head := some "abc" })
        60 1000 (fun _ => .error "offline")).usedCache = true) ∧
    ((cloneToCache true true (some { last_fetched_ms := 500, head := some "abc" })
        0 1000 (fun _ => .ok "r")).usedCache = false) := by
  constructor
  · exact ((cache_reuse_iff true
      (some { last_fetched_ms := 500, head := some "abc" }) 60 1000
      (fun _ => .error "offline") (by norm_num)
      (by intro m hm; cases hm; norm_num) (by norm_num)).1 (by norm_num)).mpr
      ⟨{ last_fetched_ms := 500, head := some "abc" }, "abc", rfl, rfl, by norm_num⟩
  · exact ((cache_reuse_iff true
      (some { last_fetched_ms := 500, head := some "abc" }) 0 1000
      (fun _ => .ok "r") (by norm_num)
      (by intro m hm; cases hm; norm_num) (by norm_num)).2.2 (by norm_num)).1

/-- Claim C5: `clone_to_cache` surfaces an error only when the fetch
capability fails twice; after the first failure the cache directory is
removed (when it exists) and the fetch retried exactly once; a success
on either attempt yields the resolved revision. -/
theorem acquire_retry_contract (gitDirExists repoDirExists : Bool)
    (meta : Option RepoCacheMeta) (ttlSecs now : Int)
    (fetch : Nat → Except String String) :
    (∀ e, (cloneToCache gitDirExists repoDirExists meta ttlSecs now fetch).result = .error e →
      ∃ e1, fetch 0 = .error e1 ∧ fetch 1 = .error e ∧
        (cloneToCache gitDirExists repoDirExists meta ttlSecs now fetch).fetchAttempts = 2 ∧
        (cloneToCache gitDirExists repoDirExists meta ttlSecs now fetch).removedCacheDir
          = repoDirExists) ∧
    (∀ e1 rev, fetch 0 = .error e1 → fetch 1 = .ok rev →
      (cloneToCache gitDirExists repoDirExists meta ttlSecs now fetch).result = .ok rev ∨
      (cloneToCache gitDirExists repoDirExists meta ttlSecs now fetch).usedCache = true) ∧
    (∀ rev, (cloneToCache gitDirExists repoDirExists meta ttlSecs now fetch).usedCache = false →
      fetch 0 = .ok rev →
      (cloneToCache gitDirExists repoDirExists meta ttlSecs now fetch).result = .ok rev ∧
      (cloneToCache gitDirExists repoDirExists meta ttlSecs now fetch).fetchAttempts = 1) := by
  rcases hf : cacheFresh gitDirExists meta ttlSecs now with _ | head
  · refine ⟨?_, ?_, ?_⟩
    · intro e he
      rcases h0 : fetch 0 with e1 | rev
      · rcases h1 : fetch 1 with e2 | rev
        · rw [cloneToCache_stale_err gitDirExists repoDirExists meta ttlSecs now fetch
            e1 e2 hf h0 h1] at he ⊢
          simp only [Except.error.injEq] at he
          subst he
          exact ⟨e1, rfl, rfl, rfl, rfl⟩
        · rw [cloneToCache_stale_retry_ok gitDirExists repoDirExists meta ttlSecs now fetch
            e1 rev hf h0 h1] at he
          cases he
      · rw [cloneToCache_stale_ok gitDirExists repoDirExists meta ttlSecs now fetch
          rev hf h0] at he
        cases he
    · intro e1 rev h0 h1
      left
      rw [cloneToCache_stale_retry_ok gitDirExists repoDirExists meta ttlSecs now fetch
        e1 rev hf h0 h1]
    · intro rev _ h0
      rw [cloneToCache_stale_ok gitDirExists repoDirExists meta ttlSecs now fetch rev hf h0]
      exact ⟨rfl, rfl⟩
  · rw [cloneToCache_of_fresh gitDirExists repoDirExists meta ttlSecs now fetch head hf]
    refine ⟨?_, ?_, ?_⟩
    · intro e he
      cases he
    · intro e1 rev h0 h1
      right
      rfl
    · intro rev hused
      cases hused

/-- Witness for C5 at concrete inputs: first fetch fails, the retry
succeeds and its revision is returned. -/
theorem acquire_retry_contract_witness :
    (cloneToCache false true none 60 1000
      (fun i => if i = 0 then .error "partial clone" else .ok "rev2")).result
      = .ok "rev2" := by
  have h := (acquire_retry_contract false true none 60 1000
    (fun i => if i = 0 then .error "partial clone" else .ok "rev2")).2.1
    "partial clone" "rev2" rfl rfl
  rcases h with h | h
  · exact h
  · exact absurd h (by decide)

/-- Claim C1 (documents the code bug): with two copy-mode targets where
the first sync fails, the loop of `update_managed_skill_from_source`
aborts with the sync error: the failing target's own row is never
written (no `status`/`last_error` recorded on it) and the second target
is never synced — propagation is not isolated per target as the
specification requires. -/
theorem sync_failure_aborts_whole_loop :
    syncCopyTargets (fun _ => false) (fun _ => false)
      (fun t => if t.id = "id1" then .error "disk full" else .ok t.target_path) 99
      [⟨"id1", "s", "claude", "/t1", "copy", "ok", none, none⟩,
       ⟨"id2", "s", "codex", "/t2", "copy", "ok", none, none⟩]
      = ⟨[], [], some "disk full"⟩ := by
  rfl

/-- Claim C4: an install (local or git) whose destination under the
canonical root already exists always fails, performs no copy and no
registry write, leaves the pre-existing destination content unchanged,
and (for git) never reaches the fetch. -/
theorem install_existing_destination_fails (c : String) :
    (∀ (sourceExists : Bool) (sourceContent : String),
      (∃ e, (installLocalSkill sourceExists (some c) sourceContent).result = .error e) ∧
      (installLocalSkill sourceExists (some c) sourceContent).finalDest = some c ∧
      (installLocalSkill sourceExists (some c) sourceContent).copiedToCentral = false ∧
      (installLocalSkill sourceExists (some c) sourceContent).upsertedRecord = false) ∧
    (∀ (subpath : Option String) (fetchResult : Except String FetchedRepo),
      (installGitSkill subpath (some c) fetchResult).result
          = .error "skill already exists in central repo" ∧
      (installGitSkill subpath (some c) fetchResult).finalDest = some c ∧
      (installGitSkill subpath (some c) fetchResult).copiedToCentral = false ∧
      (installGitSkill subpath (some c) fetchResult).upsertedRecord = false ∧
      (installGitSkill subpath (some c) fetchResult).fetched = false) := by
  constructor
  · intro sourceExists sourceContent
    rcases sourceExists with _ | _
    · exact ⟨⟨"source path not found", rfl⟩, rfl, rfl, rfl⟩
    · exact ⟨⟨"skill already exists in central repo", rfl⟩, rfl, rfl, rfl⟩
  · intro subpath fetchResult
    exact ⟨rfl, rfl, rfl, rfl, rfl⟩

/-- Claim C10: a git install of a repo-root reference (no subpath) into
a free destination, whose fetched repository has a `skills/` directory
with at least two `SKILL.md`-bearing subdirectories, fails with the
`MULTI_SKILLS` error before any copy into the canonical root and
without creating a record. -/
theorem multi_skill_repo_rejected (repo : FetchedRepo)
    (hdir : repo.skillsDirExists = true)
    (hcount : 2 ≤ repo.skillsWithSkillMd) :
    (installGitSkill none none (.ok repo)).result = .error multiSkillsError ∧
    (installGitSkill none none (.ok repo)).copiedToCentral = false ∧
    (installGitSkill none none (.ok repo)).upsertedRecord = false ∧
    (installGitSkill none none (.ok repo)).finalDest = none := by
  have hres : installGitSkill none none (.ok repo)
      = ⟨.error multiSkillsError, none, false, false, true⟩ := by
    unfold installGitSkill
    exact if_pos ⟨hdir, hcount⟩
  rw [hres]
  exact ⟨rfl, rfl, rfl, rfl⟩

/-- Witness for C10 at a concrete repository with two `SKILL.md`
subdirectories. -/
theorem multi_skill_repo_rejected_witness :
    (installGitSkill none none (.ok ⟨true, 2, none, "root"⟩)).result
      = .error multiSkillsError := by
  exact (multi_skill_repo_rejected ⟨true, 2, none, "root"⟩ rfl (by decide)).1

/-- Reduction of the descriptor parser once the opening marker matched. -/
theorem parse_skill_md_opened (text l0 : Str) (rest : List Str)
    (hlines : rustLines text = l0 :: rest) (hl0 : rustTrim l0 = fmDashes) :
    parse_skill_md_with_reason (some text)
      = (match frontmatterScan rest none none with
         | (some n, desc, true) => .ok (n, desc)
         | (none, _, true) => .error "missing_name"
         | (_, _, false) => .error "invalid_frontmatter") := by
  have h1 : parse_skill_md_with_reason (some text)
      = (match rustLines text with
         | [] => .error "invalid_frontmatter"
         | l0 :: rest =>
           if rustTrim l0 = fmDashes then
             match frontmatterScan rest none none with
             | (some n, desc, true) => .ok (n, desc)
             | (none, _, true) => .error "missing_name"
             | (_, _, false) => .error "invalid_frontmatter"
           else .error "invalid_frontmatter") := rfl
  rw [h1, hlines]
  exact if_pos hl0

/-- A dash-free line list never sets `found_end`. -/
theorem frontmatterScan_no_close (ls : List Str)
    (h : ∀ l ∈ ls, rustTrim l ≠ fmDashes) (n0 d0 : Option Str) :
    ∃ n d, frontmatterScan ls n0 d0 = (n, d, false) := by
  induction ls generalizing n0 d0 with
  | nil => exact ⟨n0, d0, rfl⟩
  | cons l rest ih =>
    have hl : rustTrim l ≠ fmDashes := h l (List.mem_cons_self _ _)
    have hrest : ∀ x ∈ rest, rustTrim x ≠ fmDashes :=
      fun x hx => h x (List.mem_cons_of_mem _ hx)
    show ∃ n d, frontmatterScan (l :: rest) n0 d0 = (n, d, false)
    unfold frontmatterScan
    rw [if_neg hl]
    rcases hstrip : stripLeading fmNameKey (rustTrim l) with _ | v
    · rcases hdesc : stripLeading fmDescKey (rustTrim l) with _ | w
      · simp only [hstrip, hdesc]
        exact ih hrest n0 d0
      · simp only [hstrip, hdesc]
        exact ih hrest n0 (some (fmFieldValue w))
    · simp only [hstrip]
      exact ih hrest (some (fmFieldValue v)) d0

/-- Scanning a dash-free block followed by a closing marker stops at the
marker with the folded `name` accumulator. -/
theorem frontmatterScan_to_close (pre : List Str) (close : Str) (post : List Str)
    (hclose : rustTrim close = fmDashes)
    (hpre : ∀ l ∈ pre, rustTrim l ≠ fmDashes) (n0 d0 : Option Str) :
    ∃ d, frontmatterScan (pre ++ close :: post) n0 d0
      = (fmNameFold n0 pre, d, true) := by
  induction pre generalizing n0 d0 with
  | nil =>
    refine ⟨d0, ?_⟩
    show frontmatterScan (close :: post) n0 d0 = (fmNameFold n0 [], d0, true)
    unfold frontmatterScan
    rw [if_pos hclose]
    rfl
  | cons l pre ih =>
    have hl : rustTrim l ≠ fmDashes := hpre l (List.mem_cons_self _ _)
    have hrest : ∀ x ∈ pre, rustTrim x ≠ fmDashes :=
      fun x hx => hpre x (List.mem_cons_of_mem _ hx)
    show ∃ d, frontmatterScan (l :: (pre ++ close :: post)) n0 d0
      = (fmNameFold n0 (l :: pre), d, true)
    unfold frontmatterScan
    rw [if_neg hl]
    have hfold : ∀ acc : Option Str, fmNameFold acc (l :: pre)
        = fmNameFold
            (match stripLeading fmNameKey (rustTrim l) with
             | some v => some (fmFieldValue v)
             | none => acc) pre := fun acc => rfl
    rcases hstrip : stripLeading fmNameKey (rustTrim l) with _ | v
    · rcases hdesc : stripLeading fmDescKey (rustTrim l) with _ | w
      · simp only [hstrip, hdesc]
        rw [hfold n0, hstrip]
        exact ih hrest n0 d0
      · simp only [hstrip, hdesc]
        rw [hfold n0, hstrip]
        exact ih hrest n0 (some (fmFieldValue w))
    · simp only [hstrip]
      rw [hfold n0, hstrip]
      exact ih hrest (some (fmFieldValue v)) d0

/-- The fold is the identity over lines without a `name:` field. -/
theorem fmNameFold_id (pre : List Str)
    (h : ∀ l ∈ pre, stripLeading fmNameKey (rustTrim l) = none)
    (n0 : Option Str) : fmNameFold n0 pre = n0 := by
  induction pre generalizing n0 with
  | nil => rfl
  | cons l pre ih =>
    have hl := h l (List.mem_cons_self _ _)
    have hrest : ∀ x ∈ pre, stripLeading fmNameKey (rustTrim x) = none :=
      fun x hx => h x (List.mem_cons_of_mem _ hx)
    show fmNameFold
        (match stripLeading fmNameKey (rustTrim l) with
         | some v => some (fmFieldValue v)
         | none => n0) pre = n0
    rw [hl]
    exact ih hrest n0

/-- A `some` accumulator survives the fold. -/
theorem fmNameFold_some (pre : List Str) (x : Str) :
    ∃ y, fmNameFold (some x) pre = some y := by
  induction pre generalizing x with
  | nil => exact ⟨x, rfl⟩
  | cons l pre ih =>
    show ∃ y, fmNameFold
        (match stripLeading fmNameKey (rustTrim l) with
         | some v => some (fmFieldValue v)
         | none => some x) pre = some y
    rcases hstrip : stripLeading fmNameKey (rustTrim l) with _ | v
    · exact ih x
    · exact ih (fmFieldValue v)

/-- The fold ends `some` when some line carries a `name:` field. -/
theorem fmNameFold_found (pre : List Str) (n0 : Option Str)
    (h : ∃ l ∈ pre, (stripLeading fmNameKey (rustTrim l)).isSome = true) :
    ∃ y, fmNameFold n0 pre = some y := by
  induction pre generalizing n0 with
  | nil =>
    rcases h with ⟨l, hl, -⟩
    exact absurd hl (List.not_mem_nil l)
  | cons l pre ih =>
    show ∃ y, fmNameFold
        (match stripLeading fmNameKey (rustTrim l) with
         | some v => some (fmFieldValue v)
         | none => n0) pre = some y
    rcases hstrip : stripLeading fmNameKey (rustTrim l) with _ | v
    · rcases h with ⟨x, hx, hxs⟩
      rcases List.mem_cons.mp hx with rfl | hx2
      · rw [hstrip] at hxs
        exact absurd hxs (by simp)
      · exact ih n0 ⟨x, hx2, hxs⟩
    · exact fmNameFold_some pre (fmFieldValue v)

/-- Claim C8: descriptor validation surfaces the distinct reason codes:
an unreadable file fails with `read_failed`; an opening `---` with no
closing `---` fails with `invalid_frontmatter`; both markers with no
`name:` line between them fails with `missing_name`; both markers with
a `name:` line succeeds, returning the (last) recorded name. -/
theorem descriptor_validation_reasons :
    (parse_skill_md_with_reason none = .error "read_failed") ∧
    (∀ text l0 rest, rustLines text = l0 :: rest → rustTrim l0 = fmDashes →
      (∀ l ∈ rest, rustTrim l ≠ fmDashes) →
      parse_skill_md_with_reason (some text) = .error "invalid_frontmatter") ∧
    (∀ text l0 pre close post,
      rustLines text = l0 :: (pre ++ close :: post) →
      rustTrim l0 = fmDashes → rustTrim close = fmDashes →
      (∀ l ∈ pre, rustTrim l ≠ fmDashes ∧
        stripLeading fmNameKey (rustTrim l) = none) →
      parse_skill_md_with_reason (some text) = .error "missing_name") ∧
    (∀ text l0 pre close post,
      rustLines text = l0 :: (pre ++ close :: post) →
      rustTrim l0 = fmDashes → rustTrim close = fmDashes →
      (∀ l ∈ pre, rustTrim l ≠ fmDashes) →
      (∃ l ∈ pre, (stripLeading fmNameKey (rustTrim l)).isSome = true) →
      ∃ n d, parse_skill_md_with_reason (some text) = .ok (n, d) ∧
        fmNameFold none pre = some n) := by
  refine ⟨rfl, ?_, ?_, ?_⟩
  · intro text l0 rest hlines hl0 hrest
    obtain ⟨n, d, hscan⟩ := frontmatterScan_no_close rest hrest none none
    rw [parse_skill_md_opened text l0 rest hlines hl0, hscan]
    rcases n with _ | n <;> rfl
  · intro text l0 pre close post hlines hl0 hclose hpre
    obtain ⟨d, hscan⟩ := frontmatterScan_to_close pre close post hclose
      (fun l hl => (hpre l hl).1) none none
    have hname : fmNameFold none pre = none :=
      fmNameFold_id pre (fun l hl => (hpre l hl).2) none
    rw [parse_skill_md_opened text l0 _ hlines hl0, hscan, hname]
  · intro text l0 pre close post hlines hl0 hclose hpre hex
    obtain ⟨d, hscan⟩ := frontmatterScan_to_close pre close post hclose hpre none none
    obtain ⟨y, hy⟩ := fmNameFold_found pre none hex
    refine ⟨y, d, ?_, hy⟩
    rw [parse_skill_md_opened text l0 _ hlines hl0, hscan, hy]

/-- Witness for C8 at a concrete descriptor file with both markers and a
`name:` field. -/
theorem descriptor_validation_reasons_witness :
    ∃ n d, parse_skill_md_with_reason
      (some ("---\nname: demo\n---\nbody".toList)) = .ok (n, d) := by
  obtain ⟨n, d, hok, -⟩ := descriptor_validation_reasons.2.2.2
    ("---\nname: demo\n---\nbody".toList) ("---".toList)
    ["name: demo".toList] ("---".toList) ["body".toList]
    (by decide) (by decide) (by decide)
    (by decide) (by decide)
  exact ⟨n, d, hok⟩

/-- The hasher input with a present branch, spelled out. -/
theorem repoCacheKeyBytes_some (url b : Str) :
    repoCacheKeyBytes url (some b) = strBytes url ++ [10] ++ strBytes b := rfl

/-- The hasher input with an absent branch, spelled out. -/
theorem repoCacheKeyBytes_none (url : Str) :
    repoCacheKeyBytes url none = strBytes url ++ [10] ++ [] := rfl

/-- UTF-8 encodes every character to at least one byte. -/
theorem utf8EncodeChar_ne_nil (c : Char) : utf8EncodeChar c ≠ [] := by
  unfold utf8EncodeChar
  split_ifs <;> simp

/-- A non-empty string has non-empty UTF-8 bytes. -/
theorem strBytes_ne_nil (s : Str) (hs : s ≠ []) : strBytes s ≠ [] := by
  cases s with
  | nil => exact absurd rfl hs
  | cons c cs =>
    show utf8EncodeChar c ++ strBytes cs ≠ []
    intro h
    exact utf8EncodeChar_ne_nil c (List.append_eq_nil.mp h).1

/-- Hex encoding yields two characters per byte. -/
theorem hexEncode_length (bs : List Nat) :
    (hexEncode bs).length = 2 * bs.length := by
  induction bs with
  | nil => rfl
  | cons b bs ih =>
    simp only [hexEncode, List.length_cons, ih]
    omega

/-- The serialized digest always has 32 bytes. -/
theorem sha256Digest_length (s : Sha256State) :
    (sha256Digest s).length = 32 := by
  simp [sha256Digest, wordBytes]

/-- SHA-256 digests always have 32 bytes. -/
theorem sha256_length (msg : List Nat) : (sha256 msg).length = 32 :=
  sha256Digest_length _

/-- Claim C3 counterexample: an absent branch and an empty branch feed
the hasher identical bytes, so `repo_cache_key` maps them to the same
key — not distinct keys as claimed. -/
theorem repo_cache_key_absent_eq_empty :
    repo_cache_key ['u'] none = repo_cache_key ['u'] (some []) :=
  congrArg (fun bs => hexEncode (sha256 bs)) rfl

/-- Claim C3 (amended): branch-absent and branch-empty always produce
the same cache key (their hasher input is identical); for every
non-empty branch the hasher input differs from both the absent and the
empty form (so the keys differ whenever the hash is collision-free);
and every key has the fixed length 64. -/
theorem repo_cache_key_properties (url b : Str) (branch : Option Str) :
    repo_cache_key url none = repo_cache_key url (some []) ∧
    (b ≠ [] → repoCacheKeyBytes url (some b) ≠ repoCacheKeyBytes url none) ∧
    (b ≠ [] → repoCacheKeyBytes url (some b) ≠ repoCacheKeyBytes url (some [])) ∧
    (repo_cache_key url branch).length = 64 := by
  refine ⟨congrArg (fun bs => hexEncode (sha256 bs)) rfl, ?_, ?_, ?_⟩
  · intro hb heq
    have hlen := congrArg List.length heq
    rw [repoCacheKeyBytes_some, repoCacheKeyBytes_none] at hlen
    simp only [List.length_append, List.length_cons, List.length_nil] at hlen
    have hsb : strBytes b ≠ [] := strBytes_ne_nil b hb
    have h0 : (strBytes b).length ≠ 0 := fun h =>
      hsb (List.length_eq_zero.mp h)
    omega
  · intro hb heq
    have hlen := congrArg List.length heq
    rw [repoCacheKeyBytes_some, repoCacheKeyBytes_some] at hlen
    simp only [List.length_append, List.length_cons, List.length_nil] at hlen
    have hsb : strBytes b ≠ [] := strBytes_ne_nil b hb
    have h0 : (strBytes b).length ≠ 0 := fun h =>
      hsb (List.length_eq_zero.mp h)
    have hnil : (strBytes ([] : Str)).length = 0 := rfl
    omega
  · show (hexEncode (sha256 (repoCacheKeyBytes url branch))).length = 64
    rw [hexEncode_length, sha256_length]

/-- Witness for the amended C3 at concrete inputs: a one-character
branch keys differently (at the hasher-input level) from an absent
branch, and the key for the absent branch has 64 characters. -/
theorem repo_cache_key_properties_witness :
    repoCacheKeyBytes ['u'] (some ['x']) ≠ repoCacheKeyBytes ['u'] none ∧
    (repo_cache_key ['u'] none).length = 64 :=
  ⟨(repo_cache_key_properties ['u'] ['x'] none).2.1 (by decide),
   (repo_cache_key_properties ['u'] ['x'] none).2.2.2⟩

/-- Splitting never yields an empty piece list. -/
theorem splitOnChar_ne_nil (c : Char) (s : Str) : splitOnChar c s ≠ [] := by
  cases s with
  | nil => simp [splitOnChar]
  | cons x xs =>
    unfold splitOnChar
    by_cases hx : x = c
    · simp [hx]
    · rw [if_neg hx]
      rcases h : splitOnChar c xs with _ | ⟨hh, t⟩ <;> simp

/-- Splitting a separator-free string gives that one piece. -/
theorem splitOnChar_no_sep (c : Char) (s : Str) (h : c ∉ s) :
    splitOnChar c s = [s] := by
  induction s with
  | nil => rfl
  | cons x xs ih =>
    have hx : ¬ x = c := by
      intro hxc
      subst hxc
      exact h (List.mem_cons_self _ _)
    have hxs : c ∉ xs := fun hc => h (List.mem_cons_of_mem _ hc)
    unfold splitOnChar
    rw [if_neg hx, ih hxs]

/-- Unfolding equation: splitting at a head separator. -/
theorem splitOnChar_cons_eq (c : Char) (xs : Str) :
    splitOnChar c (c :: xs) = [] :: splitOnChar c xs := by
  conv_lhs => unfold splitOnChar
  rw [if_pos rfl]

/-- Unfolding equation: splitting at a head non-separator. -/
theorem splitOnChar_cons_ne (c x : Char) (xs : Str) (hx : ¬ x = c) :
    splitOnChar c (x :: xs)
      = (match splitOnChar c xs with
         | [] => [[x]]
         | h :: t => (x :: h) :: t) := by
  conv_lhs => unfold splitOnChar
  rw [if_neg hx]

/-- Splitting peels off a separator-free head segment. -/
theorem splitOnChar_append (c : Char) (a b : Str) (ha : c ∉ a) :
    splitOnChar c (a ++ c :: b) = a :: splitOnChar c b := by
  induction a with
  | nil => simp [splitOnChar]
  | cons x xs ih =>
    have hx : ¬ x = c := by
      intro hxc
      subst hxc
      exact ha (List.mem_cons_self _ _)
    have hxs : c ∉ xs := fun hc => ha (List.mem_cons_of_mem _ hc)
    show splitOnChar c (x :: (xs ++ c :: b)) = (x :: xs) :: splitOnChar c b
    rw [splitOnChar_cons_ne c x _ hx, ih hxs]

/-- Two-or-more pieces join head-first. -/
theorem intercalateChar_cons2 (c : Char) (s hh : Str) (t : List Str) :
    intercalateChar c (s :: hh :: t) = s ++ c :: intercalateChar c (hh :: t) := rfl

/-- Joining undoes splitting. -/
theorem intercalate_splitOnChar (c : Char) (s : Str) :
    intercalateChar c (splitOnChar c s) = s := by
  induction s with
  | nil => rfl
  | cons x xs ih =>
    rcases h2 : splitOnChar c xs with _ | ⟨hh, t⟩
    · exact absurd h2 (splitOnChar_ne_nil c xs)
    · by_cases hx : x = c
      · subst hx
        rw [splitOnChar_cons_eq, h2, intercalateChar_cons2, ← h2, ih]
        rfl
      · have h1 : splitOnChar c (x :: xs) = (x :: hh) :: t := by
          rw [splitOnChar_cons_ne c x _ hx, h2]
        rw [h1]
        rcases t with _ | ⟨t1, t2⟩
        · show x :: hh = x :: xs
          rw [h2] at ih
          exact congrArg (List.cons x) ih
        · rw [intercalateChar_cons2]
          rw [h2, intercalateChar_cons2] at ih
          show x :: (hh ++ c :: intercalateChar c (t1 :: t2)) = x :: xs
          exact congrArg (List.cons x) ih

/-- A list is a (boolean) prefix of itself extended. -/
theorem isPrefixOf_append_self (p t : Str) : p.isPrefixOf (p ++ t) = true := by
  induction p with
  | nil => cases t <;> rfl
  | cons x xs ih => simp [List.isPrefixOf, ih]

/-- Inversion of the boolean prefix test. -/
theorem eq_append_of_isPrefixOf (p s : Str) (h : p.isPrefixOf s = true) :
    ∃ t, s = p ++ t := by
  induction p generalizing s with
  | nil => exact ⟨s, rfl⟩
  | cons x xs ih =>
    cases s with
    | nil => simp [List.isPrefixOf] at h
    | cons y ys =>
      simp only [List.isPrefixOf, Bool.and_eq_true, beq_iff_eq] at h
      obtain ⟨rfl, h2⟩ := h
      obtain ⟨t, rfl⟩ := ih ys h2
      exact ⟨t, rfl⟩

/-- Characters of a prefix occur in the whole. -/
theorem mem_of_isPrefixOf (p s : Str) (c : Char) (h : p.isPrefixOf s = true)
    (hc : c ∈ p) : c ∈ s := by
  obtain ⟨t, rfl⟩ := eq_append_of_isPrefixOf p s h
  exact List.mem_append_left t hc

/-- A mismatch at one position refutes the prefix test. -/
theorem isPrefixOf_eq_false_of_get (p s : Str) (i : Nat) (a b : Char)
    (hp : p.get? i = some a) (hs : s.get? i = some b) (hab : a ≠ b) :
    p.isPrefixOf s = false := by
  by_contra hcon
  rw [Bool.not_eq_false] at hcon
  obtain ⟨t, rfl⟩ := eq_append_of_isPrefixOf p _ hcon
  have hi : i < p.length := by
    by_contra hge
    rw [List.get?_eq_none.mpr (Nat.le_of_not_lt hge)] at hp
    cases hp
  rw [List.get?_append hi, hp] at hs
  exact hab (Option.some.inj hs)

/-- If `b/…` is a prefix of `a/…` and neither `a` nor `b` contains a
slash, the first segments agree. -/
theorem slash_segment_eq (b a t s : Str) (hb : '/' ∉ b) (ha : '/' ∉ a)
    (h : (b ++ '/' :: t).isPrefixOf (a ++ '/' :: s) = true) : b = a := by
  induction b generalizing a with
  | nil =>
    cases a with
    | nil => rfl
    | cons x xs =>
      simp only [List.nil_append, List.cons_append, List.isPrefixOf,
        Bool.and_eq_true, beq_iff_eq] at h
      exact absurd (by rw [h.1]; exact List.mem_cons_self x xs) ha
  | cons y ys ih =>
    cases a with
    | nil =>
      simp only [List.nil_append, List.cons_append, List.isPrefixOf,
        Bool.and_eq_true, beq_iff_eq] at h
      exact absurd (by rw [← h.1]; exact List.mem_cons_self y ys) hb
    | cons x xs =>
      simp only [List.cons_append, List.isPrefixOf, Bool.and_eq_true,
        beq_iff_eq] at h
      obtain ⟨rfl, h2⟩ := h
      have hys : '/' ∉ ys := fun hm => hb (List.mem_cons_of_mem _ hm)
      have hxs : '/' ∉ xs := fun hm => ha (List.mem_cons_of_mem _ hm)
      rw [ih xs hys hxs h2]

/-- `dropWhile` keeps a list whose head fails the predicate. -/
theorem dropWhile_cons_false (p : Char → Bool) (x : Char) (l : Str)
    (hx : p x = false) : List.dropWhile p (x :: l) = x :: l := by
  simp [List.dropWhile_cons, hx]

/-- Safe characters are not separators, scheme markers or whitespace. -/
theorem char_eq_of_toNat (a b : Char) (h : a.toNat = b.toNat) : a = b := by
  cases a
  cases b
  simp only [Char.toNat] at h
  congr 1
  exact UInt32.ext h

theorem isSafeChar_spec (c : Char) (h : isSafeChar c = true) :
    ¬ c = '/' ∧ ¬ c = ':' ∧ ¬ c = '@' ∧ ¬ c = '~' ∧ rustIsWhitespace c = false := by
  refine ⟨?_, ?_, ?_, ?_, ?_⟩
  · intro hc
    subst hc
    exact absurd h (by decide)
  · intro hc
    subst hc
    exact absurd h (by decide)
  · intro hc
    subst hc
    exact absurd h (by decide)
  · intro hc
    subst hc
    exact absurd h (by decide)
  · by_contra hw
    rw [Bool.not_eq_false] at hw
    simp only [rustIsWhitespace, Bool.or_eq_true, Bool.and_eq_true,
      decide_eq_true_eq] at hw
    have hv : c.toNat = 9 ∨ c.toNat = 10 ∨ c.toNat = 11 ∨ c.toNat = 12 ∨
        c.toNat = 13 ∨ c.toNat = 32 ∨ c.toNat = 133 ∨ c.toNat = 160 ∨
        c.toNat = 5760 ∨ c.toNat = 8192 ∨ c.toNat = 8193 ∨ c.toNat = 8194 ∨
        c.toNat = 8195 ∨ c.toNat = 8196 ∨ c.toNat = 8197 ∨ c.toNat = 8198 ∨
        c.toNat = 8199 ∨ c.toNat = 8200 ∨ c.toNat = 8201 ∨ c.toNat = 8202 ∨
        c.toNat = 8232 ∨ c.toNat = 8233 ∨ c.toNat = 8239 ∨ c.toNat = 8287 ∨
        c.toNat = 12288 := by omega
    rcases hv with hk|hk|hk|hk|hk|hk|hk|hk|hk|hk|hk|hk|hk|hk|hk|hk|hk|hk|hk|hk|hk|hk|hk|hk|hk
    · cases char_eq_of_toNat c '\t' hk; exact absurd h (by decide)
    · cases char_eq_of_toNat c '\n' hk; exact absurd h (by decide)
    · cases char_eq_of_toNat c '\x0b' hk; exact absurd h (by decide)
    · cases char_eq_of_toNat c '\x0c' hk; exact absurd h (by decide)
    · cases char_eq_of_toNat c '\x0d' hk; exact absurd h (by decide)
    · cases char_eq_of_toNat c ' ' hk; exact absurd h (by decide)
    · cases char_eq_of_toNat c '\u0085' hk; exact absurd h (by decide)
    · cases char_eq_of_toNat c '\u00a0' hk; exact absurd h (by decide)
    · cases char_eq_of_toNat c '\u1680' hk; exact absurd h (by decide)
    · cases char_eq_of_toNat c '\u2000' hk; exact absurd h (by decide)
    · cases char_eq_of_toNat c '\u2001' hk; exact absurd h (by decide)
    · cases char_eq_of_toNat c '\u2002' hk; exact absurd h (by decide)
    · cases char_eq_of_toNat c '\u2003' hk; exact absurd h (by decide)
    · cases char_eq_of_toNat c '\u2004' hk; exact absurd h (by decide)
    · cases char_eq_of_toNat c '\u2005' hk; exact absurd h (by decide)
    · cases char_eq_of_toNat c '\u2006' hk; exact absurd h (by decide)
    · cases char_eq_of_toNat c '\u2007' hk; exact absurd h (by decide)
    · cases char_eq_of_toNat c '\u2008' hk; exact absurd h (by decide)
    · cases char_eq_of_toNat c '\u2009' hk; exact absurd h (by decide)
    · cases char_eq_of_toNat c '\u200a' hk; exact absurd h (by decide)
    · cases char_eq_of_toNat c '\u2028' hk; exact absurd h (by decide)
    · cases char_eq_of_toNat c '\u2029' hk; exact absurd h (by decide)
    · cases char_eq_of_toNat c '\u202f' hk; exact absurd h (by decide)
    · cases char_eq_of_toNat c '\u205f' hk; exact absurd h (by decide)
    · cases char_eq_of_toNat c '\u3000' hk; exact absurd h (by decide)

/-- Dropping trailing separators keeps a list not ending in one. -/
theorem trimEndChar_concat_ne (c x : Char) (a : Str) (hx : ¬ x = c) :
    trimEndChar c (a ++ [x]) = a ++ [x] := by
  unfold trimEndChar
  rw [show (a ++ [x]).reverse = x :: a.reverse by simp]
  rw [dropWhile_cons_false _ x a.reverse (by simp [hx])]
  simp

/-- Dropping trailing separators removes a final separator. -/
theorem trimEndChar_concat_sep (c : Char) (a : Str) :
    trimEndChar c (a ++ [c]) = trimEndChar c a := by
  unfold trimEndChar
  rw [show (a ++ [c]).reverse = c :: a.reverse by simp]
  simp [List.dropWhile_cons]

/-- `trim_end_matches` is the identity when the last character differs. -/
theorem trimEndChar_eq_self_of_last (c : Char) (s : Str)
    (h : ∀ x, s.getLast? = some x → ¬ x = c) : trimEndChar c s = s := by
  rcases List.eq_nil_or_concat s with rfl | ⟨s2, x, rfl⟩
  · rfl
  · rw [List.concat_eq_append]
    exact trimEndChar_concat_ne c x s2 (h x (by simp))

/-- `trim` is the identity when both ends are non-whitespace. -/
theorem rustTrim_eq_self (s : Str)
    (h1 : ∀ y, s.head? = some y → rustIsWhitespace y = false)
    (h2 : ∀ x, s.getLast? = some x → rustIsWhitespace x = false) :
    rustTrim s = s := by
  cases s with
  | nil => rfl
  | cons y rest =>
    unfold rustTrim
    rw [dropWhile_cons_false _ y rest (h1 y rfl)]
    rcases hrev : (y :: rest).reverse with _ | ⟨x, revrest⟩
    · exact absurd hrev (by simp)
    · have hlast : (y :: rest).getLast? = some x := by
        rw [← List.head?_reverse, hrev]
        rfl
      rw [dropWhile_cons_false _ x revrest (h2 x hlast)]
      rw [← hrev, List.reverse_reverse]

/-- Characters found in a contained pattern occur in the string. -/
theorem mem_of_containsSeq (pat s : Str) (c : Char)
    (h : containsSeq pat s = true) (hc : c ∈ pat) : c ∈ s := by
  induction s with
  | nil =>
    cases pat with
    | nil => exact absurd hc (List.not_mem_nil c)
    | cons p ps => exact absurd h (by simp [containsSeq, List.isPrefixOf])
  | cons x xs ih =>
    simp only [containsSeq, Bool.or_eq_true] at h
    rcases h with h | h
    · exact mem_of_isPrefixOf pat _ c h hc
    · exact List.mem_cons_of_mem _ (ih h)

/-- A pattern with a character missing from the string is not contained. -/
theorem containsSeq_eq_false (pat s : Str) (c : Char) (hc : c ∈ pat)
    (hs : c ∉ s) : containsSeq pat s = false := by
  by_contra h
  rw [Bool.not_eq_false] at h
  exact hs (mem_of_containsSeq pat s c h hc)

/-- Stripping trailing `.git` repetitions only removes characters. -/
theorem trimEndGitFuel_subset (fuel : Nat) (s : Str) (c : Char)
    (h : c ∈ trimEndGitFuel fuel s) : c ∈ s := by
  induction fuel generalizing s with
  | zero => exact h
  | succ fuel ih =>
    unfold trimEndGitFuel at h
    split_ifs at h with hsuf
    · exact List.take_subset _ _ (ih _ h)
    · exact h

/-- Stripping trailing `.git` preserves an all-safe character set. -/
theorem trimEndGit_all_safe (s : Str) (hs : ∀ c ∈ s, isSafeChar c = true) :
    (trimEndGit s).all isSafeChar = true := by
  rw [List.all_eq_true]
  intro c hc
  exact hs c (trimEndGitFuel_subset s.length s c hc)

/-- A list is a (boolean) suffix of itself prepended. -/
theorem isSuffixOf_append_self (p t : Str) : p.isSuffixOf (t ++ p) = true := by
  show p.reverse.isPrefixOf (t ++ p).reverse = true
  rw [show (t ++ p).reverse = p.reverse ++ t.reverse by simp]
  exact isPrefixOf_append_self _ _

/-- Stripping one `.git` suffix from an appended one. -/
theorem take_append_git (r : Str) :
    (r ++ gitSuffix).take ((r ++ gitSuffix).length - 4) = r := by
  have h : (r ++ gitSuffix).length - 4 = r.length := by
    simp [gitSuffix]
  rw [h, List.take_left]

/-- Head of an append with a non-empty left part. -/
theorem head?_append_left (a b : Str) (ha : a ≠ []) :
    (a ++ b).head? = a.head? := by
  cases a with
  | nil => exact absurd rfl ha
  | cons x xs => rfl

/-- Last of an append with a non-empty right part. -/
theorem getLast?_append_right (a b : Str) (hb : b ≠ []) :
    (a ++ b).getLast? = b.getLast? := by
  rw [← List.head?_reverse, ← List.head?_reverse, List.reverse_append]
  exact head?_append_left _ _ (by
    intro h
    exact hb (by simpa using congrArg List.reverse h))

/-- Last of a cons with a non-empty tail. -/
theorem getLast?_cons_of_ne (c : Char) (r : Str) (hr : r ≠ []) :
    (c :: r).getLast? = r.getLast? :=
  getLast?_append_right [c] r hr

/-- A non-empty safe segment has a safe first character. -/
theorem safeSeg_head (s : Str) (hs : SafeSeg s) :
    ∃ y, s.head? = some y ∧ isSafeChar y = true := by
  rcases hs with ⟨hne, hall⟩
  cases s with
  | nil => exact absurd rfl hne
  | cons y t => exact ⟨y, rfl, hall y (List.mem_cons_self _ _)⟩

/-- A non-empty safe segment has a safe last character. -/
theorem safeSeg_last (s : Str) (hs : SafeSeg s) :
    ∃ x, s.getLast? = some x ∧ isSafeChar x = true := by
  rcases hs with ⟨hne, hall⟩
  rcases List.eq_nil_or_concat s with rfl | ⟨s2, x, rfl⟩
  · exact absurd rfl hne
  · rw [List.concat_eq_append]
    exact ⟨x, by simp, hall x (by simp)⟩

/-- Safe segments contain no slash, colon or at sign. -/
theorem safeSeg_not_mem (s : Str) (hs : SafeSeg s) :
    '/' ∉ s ∧ ':' ∉ s ∧ '@' ∉ s := by
  refine ⟨fun h => ?_, fun h => ?_, fun h => ?_⟩
  · exact (isSafeChar_spec _ (hs.2 _ h)).1 rfl
  · exact (isSafeChar_spec _ (hs.2 _ h)).2.1 rfl
  · exact (isSafeChar_spec _ (hs.2 _ h)).2.2.1 rfl

/-- Both trims are the identity on a reference with a non-whitespace
start and a non-whitespace, non-slash end. -/
theorem trims_id (s : Str)
    (hhead : ∀ y, s.head? = some y → rustIsWhitespace y = false)
    (hlast : ∀ x, s.getLast? = some x → rustIsWhitespace x = false ∧ ¬ x = '/') :
    trimEndChar '/' (rustTrim s) = s := by
  rw [rustTrim_eq_self s hhead (fun x hx => (hlast x hx).1)]
  exact trimEndChar_eq_self_of_last _ s (fun x hx => (hlast x hx).2)

/-- Both trims reduce a reference with one trailing slash to the
reference itself. -/
theorem trims_id_slash (s : Str) (hs : s ≠ [])
    (hhead : ∀ y, s.head? = some y → rustIsWhitespace y = false)
    (hlast : ∀ x, s.getLast? = some x → rustIsWhitespace x = false ∧ ¬ x = '/') :
    trimEndChar '/' (rustTrim (s ++ ['/'])) = s := by
  have h1 : rustTrim (s ++ ['/']) = s ++ ['/'] := by
    apply rustTrim_eq_self
    · intro y hy
      rw [head?_append_left s _ hs] at hy
      exact hhead y hy
    · intro x hx
      rw [getLast?_append_right s _ (by simp)] at hx
      rw [show (['/'] : Str).getLast? = some '/' from rfl] at hx
      cases hx
      decide
  rw [h1, trimEndChar_concat_sep]
  exact trimEndChar_eq_self_of_last _ s (fun x hx => (hlast x hx).2)

/-- `https://github.com/` is no prefix of a colon-free reference. -/
theorem not_https_no_colon (s : Str) (h : ':' ∉ s) :
    ghHttps.isPrefixOf s = false := by
  by_contra hcon
  rw [Bool.not_eq_false] at hcon
  exact h (mem_of_isPrefixOf _ _ ':' hcon (by decide))

/-- `http://github.com/` is no prefix of a colon-free reference. -/
theorem not_http_no_colon (s : Str) (h : ':' ∉ s) :
    ghHttp.isPrefixOf s = false := by
  by_contra hcon
  rw [Bool.not_eq_false] at hcon
  exact h (mem_of_isPrefixOf _ _ ':' hcon (by decide))

/-- `github.com/` is no prefix of `owner/…` when the owner is slash-free
and not the literal `github.com`. -/
theorem not_bare_of_owner (o rest : Str) (ho : '/' ∉ o) (hne : o ≠ ghBareHost) :
    ghBare.isPrefixOf (o ++ '/' :: rest) = false := by
  by_contra hcon
  rw [Bool.not_eq_false] at hcon
  have hcon2 : (ghBareHost ++ '/' :: []).isPrefixOf (o ++ '/' :: rest) = true := hcon
  exact hne (slash_segment_eq ghBareHost o [] rest (by decide) ho hcon2).symm

/-- `https://github.com/` is no prefix of an `http://…` reference. -/
theorem not_https_of_http (x : Str) : ghHttps.isPrefixOf (ghHttp ++ x) = false := by
  apply isPrefixOf_eq_false_of_get _ _ 4 's' ':'
  · rfl
  · rw [List.get?_append (by decide)]
    rfl
  · decide

/-- `https://github.com/` is no prefix of a bare `github.com/…` reference. -/
theorem not_https_of_bare (x : Str) : ghHttps.isPrefixOf (ghBare ++ x) = false := by
  apply isPrefixOf_eq_false_of_get _ _ 0 'h' 'g'
  · rfl
  · rw [List.get?_append (by decide)]
    rfl
  · decide

/-- `http://github.com/` is no prefix of a bare `github.com/…` reference. -/
theorem not_http_of_bare (x : Str) : ghHttp.isPrefixOf (ghBare ++ x) = false := by
  apply isPrefixOf_eq_false_of_get _ _ 0 'h' 'g'
  · rfl
  · rw [List.get?_append (by decide)]
    rfl
  · decide

/-- A string without the character does not (boolean-)contain it. -/
theorem contains_eq_false_of_not_mem (l : Str) (a : Char) (h : a ∉ l) :
    l.contains a = false := by
  by_contra hc
  rw [Bool.not_eq_false] at hc
  exact h (List.elem_iff.mp hc)

/-- Slash-split of `owner/repo`. -/
theorem split_or (o r : Str) (ho : '/' ∉ o) (hr : '/' ∉ r) :
    splitOnChar '/' (o ++ '/' :: r) = [o, r] := by
  rw [splitOnChar_append '/' o r ho, splitOnChar_no_sep '/' r hr]

/-- Slash-split of `owner/repo/tree/branch/path`. -/
theorem split_tree (o r b p : Str) (ho : '/' ∉ o) (hr : '/' ∉ r) (hb : '/' ∉ b) :
    splitOnChar '/' (o ++ '/' :: (r ++ '/' :: (treeSeg ++ '/' :: (b ++ '/' :: p))))
      = o :: r :: treeSeg :: b :: splitOnChar '/' p := by
  rw [splitOnChar_append '/' o _ ho, splitOnChar_append '/' r _ hr,
    splitOnChar_append '/' treeSeg _ (by decide), splitOnChar_append '/' b _ hb]

/-- Unfolding equation for the segment checks on two-or-more parts. -/
theorem shorthandSegments_cons (owner repo : Str) (restParts : List Str) :
    shorthandSegments (owner :: repo :: restParts)
      = (if (owner = [] || repo = [] || owner = ['.'] || owner = ['.', '.'] ||
            repo = ['.'] || repo = ['.', '.']) then false
         else if !(owner.all isSafeChar && (trimEndGit repo).all isSafeChar) then false
         else
           match restParts with
           | [] => true
           | p2 :: _ => p2 = treeSeg || p2 = blobSeg) := rfl

/-- The shorthand recognizer accepts the claimed owner/repo forms. -/
theorem shorthand_true (o tail2 r : Str) (rest : List Str)
    (hsplit : splitOnChar '/' (o ++ '/' :: tail2) = o :: r :: rest)
    (ho : SafeSeg o) (hoD : o.head? ≠ some '.')
    (hrne : r ≠ []) (hrD1 : r ≠ ['.']) (hrD2 : r ≠ ['.', '.'])
    (hrsafe : ∀ c ∈ r, isSafeChar c = true)
    (hcolon : ':' ∉ o ++ '/' :: tail2) (hat : '@' ∉ o ++ '/' :: tail2)
    (hrest : rest = [] ∨ ∃ p2 rr, rest = p2 :: rr ∧ (p2 = treeSeg ∨ p2 = blobSeg)) :
    looks_like_github_shorthand (o ++ '/' :: tail2) = true := by
  obtain ⟨y, hy, hysafe⟩ := safeSeg_head o ho
  have s := isSafeChar_spec y hysafe
  have hyd : ¬ y = '.' := by
    intro hh
    exact hoD (hh ▸ hy)
  obtain ⟨o', rfl⟩ : ∃ o', o = y :: o' := by
    cases o with
    | nil => cases hy
    | cons a o2 =>
      cases hy
      exact ⟨o2, rfl⟩
  have hI : looks_like_github_shorthand ((y :: o') ++ '/' :: tail2)
      = shorthandChecks y ((y :: o') ++ '/' :: tail2) := rfl
  rw [hI]
  unfold shorthandChecks
  rw [if_neg (by simp [s.1, s.2.2.2.1, hyd])]
  rw [if_neg (by
    rw [containsSeq_eq_false schemeSep _ ':' (by decide) hcolon,
      contains_eq_false_of_not_mem _ '@' hat,
      contains_eq_false_of_not_mem _ ':' hcolon]
    simp)]
  rw [hsplit, shorthandSegments_cons]
  rw [if_neg (by simp [hyd, hrne, hrD1, hrD2])]
  rw [if_neg (by
    have hall1 : (y :: o').all isSafeChar = true := List.all_eq_true.mpr ho.2
    have hall2 := trimEndGit_all_safe r hrsafe
    simp [hall1, hall2])]
  rcases hrest with rfl | ⟨p2, rr, rfl, hp2⟩
  · rfl
  · rcases hp2 with rfl | rfl <;> simp

/-- The last character of `/repo` is the repo's last character. -/
theorem lastSafe_slashCons (r : Str) (hr : SafeSeg r) :
    ∀ x, ('/' :: r).getLast? = some x → isSafeChar x = true := by
  intro x hx
  rw [getLast?_cons_of_ne '/' r hr.1] at hx
  obtain ⟨x', hx', hxs⟩ := safeSeg_last r hr
  rw [hx'] at hx
  cases hx
  exact hxs

/-- Last-character safety is preserved by prepending. -/
theorem lastSafe_append (a i : Str) (hne : i ≠ [])
    (h : ∀ x, i.getLast? = some x → isSafeChar x = true) :
    ∀ x, (a ++ i).getLast? = some x → isSafeChar x = true := by
  intro x hx
  rw [getLast?_append_right a i hne] at hx
  exact h x hx

/-- Appending safe segments is safe. -/
theorem safeSeg_append (a b : Str) (ha : SafeSeg a) (hb : SafeSeg b) :
    SafeSeg (a ++ b) := by
  refine ⟨by simp [ha.1], ?_⟩
  intro c hc
  rcases List.mem_append.mp hc with hc | hc
  · exact ha.2 c hc
  · exact hb.2 c hc

/-- Both trims are the identity on a reference with a non-whitespace
leading part and a safe-charactered tail. -/
theorem trims_id_append (pre i : Str) (hpreNe : pre ≠ [])
    (hpreHead : ∀ y, pre.head? = some y → rustIsWhitespace y = false)
    (hne : i ≠ []) (hlast : ∀ x, i.getLast? = some x → isSafeChar x = true) :
    trimEndChar '/' (rustTrim (pre ++ i)) = pre ++ i := by
  apply trims_id
  · intro y hy
    rw [head?_append_left pre _ hpreNe] at hy
    exact hpreHead y hy
  · intro x hx
    rw [getLast?_append_right pre _ hne] at hx
    exact ⟨(isSafeChar_spec _ (hlast x hx)).2.2.2.2,
      (isSafeChar_spec _ (hlast x hx)).1⟩

/-- The trailing-slash variant of `trims_id_append`. -/
theorem trims_slash_append (pre i : Str) (hpreNe : pre ≠ [])
    (hpreHead : ∀ y, pre.head? = some y → rustIsWhitespace y = false)
    (hne : i ≠ []) (hlast : ∀ x, i.getLast? = some x → isSafeChar x = true) :
    trimEndChar '/' (rustTrim ((pre ++ i) ++ ['/'])) = pre ++ i := by
  apply trims_id_slash
  · simp [hpreNe]
  · intro y hy
    rw [head?_append_left pre _ hpreNe] at hy
    exact hpreHead y hy
  · intro x hx
    rw [getLast?_append_right pre _ hne] at hx
    exact ⟨(isSafeChar_spec _ (hlast x hx)).2.2.2.2,
      (isSafeChar_spec _ (hlast x hx)).1⟩

/-- Weak variant of `trims_id_append`: the tail's last character only
needs to be non-whitespace and non-slash. -/
theorem trims_id_append_w (pre i : Str) (hpreNe : pre ≠ [])
    (hpreHead : ∀ y, pre.head? = some y → rustIsWhitespace y = false)
    (hne : i ≠ [])
    (hlast : ∀ x, i.getLast? = some x → rustIsWhitespace x = false ∧ ¬ x = '/') :
    trimEndChar '/' (rustTrim (pre ++ i)) = pre ++ i := by
  apply trims_id
  · intro y hy
    rw [head?_append_left pre _ hpreNe] at hy
    exact hpreHead y hy
  · intro x hx
    rw [getLast?_append_right pre _ hne] at hx
    exact hlast x hx

/-- Weak variant of `trims_slash_append`. -/
theorem trims_slash_append_w (pre i : Str) (hpreNe : pre ≠ [])
    (hpreHead : ∀ y, pre.head? = some y → rustIsWhitespace y = false)
    (hne : i ≠ [])
    (hlast : ∀ x, i.getLast? = some x → rustIsWhitespace x = false ∧ ¬ x = '/') :
    trimEndChar '/' (rustTrim ((pre ++ i) ++ ['/'])) = pre ++ i := by
  apply trims_id_slash
  · simp [hpreNe]
  · intro y hy
    rw [head?_append_left pre _ hpreNe] at hy
    exact hpreHead y hy
  · intro x hx
    rw [getLast?_append_right pre _ hne] at hx
    exact hlast x hx

/-- The final trailing-slash trim keeps `https://github.com/…tail` with
a safe last character. -/
theorem trimEnd_https_tail (i : Str) (hne : i ≠ [])
    (hlast : ∀ x, i.getLast? = some x → isSafeChar x = true) :
    trimEndChar '/' (ghHttps ++ i) = ghHttps ++ i := by
  apply trimEndChar_eq_self_of_last
  intro x hx
  rw [getLast?_append_right ghHttps i hne] at hx
  exact (isSafeChar_spec _ (hlast x hx)).1

/-- Not-membership distributes over append. -/
theorem char_not_mem_append (c : Char) (a b : Str) (ha : c ∉ a) (hb : c ∉ b) :
    c ∉ a ++ b := by
  intro hm
  rcases List.mem_append.mp hm with h | h
  · exact ha h
  · exact hb h

/-- Not-membership distributes over cons. -/
theorem char_not_mem_cons (c d : Char) (b : Str) (hd : ¬ c = d) (hb : c ∉ b) :
    c ∉ d :: b := by
  intro hm
  rcases List.mem_cons.mp hm with h | h
  · exact hd h
  · exact hb h

/-- Prefix rules keep an https reference. -/
theorem applyPrefixRules_https (i : Str) :
    applyPrefixRules (ghHttps ++ i) = ghHttps ++ i := by
  unfold applyPrefixRules
  rw [if_pos (isPrefixOf_append_self ghHttps i)]

/-- Prefix rules upgrade an http reference to https. -/
theorem applyPrefixRules_http (i : Str) :
    applyPrefixRules (ghHttp ++ i) = ghHttps ++ i := by
  unfold applyPrefixRules
  rw [if_neg (by rw [not_https_of_http i]; simp),
    if_pos (isPrefixOf_append_self ghHttp i), List.drop_left]

/-- Prefix rules upgrade a bare `github.com/` reference to https. -/
theorem applyPrefixRules_bare (i : Str) :
    applyPrefixRules (ghBare ++ i) = ghHttps ++ i := by
  unfold applyPrefixRules
  rw [if_neg (by rw [not_https_of_bare i]; simp),
    if_neg (by rw [not_http_of_bare i]; simp),
    if_pos (isPrefixOf_append_self ghBare i), ← List.append_assoc]
  rfl

/-- Prefix rules expand an accepted shorthand. -/
theorem applyPrefixRules_shorthand (s : Str) (hcolon : ':' ∉ s)
    (hbareNe : ghBare.isPrefixOf s = false)
    (hsh : looks_like_github_shorthand s = true) :
    applyPrefixRules s = ghHttps ++ s := by
  unfold applyPrefixRules
  rw [if_neg (by rw [not_https_no_colon s hcolon]; simp),
    if_neg (by rw [not_http_no_colon s hcolon]; simp),
    if_neg (by rw [hbareNe]; simp), if_pos hsh]

/-- No `.git` suffix, nothing stripped. -/
theorem stripOneGit_no (r : Str) (hgit : gitSuffix.isSuffixOf r = false) :
    stripOneGit r = r := by
  unfold stripOneGit
  rw [if_neg (by rw [hgit]; simp)]

/-- An explicit `.git` suffix is stripped. -/
theorem stripOneGit_yes (r : Str) : stripOneGit (r ++ gitSuffix) = r := by
  unfold stripOneGit
  rw [if_pos (isSuffixOf_append_self gitSuffix r)]
  exact take_append_git r

/-- Segment extraction on exactly owner and repo. -/
theorem parseSegments_two (t o r : Str) :
    parseSegments t [o, r]
      = ⟨ghHttps ++ o ++ '/' :: stripOneGit r ++ gitSuffix, none, none⟩ := rfl

/-- Segment extraction on a `tree` folder reference. -/
theorem parseSegments_tree (t o r b s1 : Str) (s2 : List Str) :
    parseSegments t (o :: r :: treeSeg :: b :: s1 :: s2)
      = ⟨ghHttps ++ o ++ '/' :: stripOneGit r ++ gitSuffix, some b,
          some (intercalateChar '/' (s1 :: s2))⟩ := by
  have h : parseSegments t (o :: r :: treeSeg :: b :: s1 :: s2)
      = (if (treeSeg = treeSeg || treeSeg = blobSeg) then
           ⟨ghHttps ++ o ++ '/' :: stripOneGit r ++ gitSuffix, some b,
             some (intercalateChar '/' (s1 :: s2))⟩
         else
           ⟨ghHttps ++ o ++ '/' :: stripOneGit r ++ gitSuffix, none, none⟩) := rfl
  rw [h, if_pos (by simp)]

/-- The https form reaches segment extraction on its split tail. -/
theorem parseNormalized_segments (i : Str) :
    parseNormalized (ghHttps ++ i)
      = parseSegments (ghHttps ++ i) (splitOnChar '/' i) := by
  unfold parseNormalized
  rw [if_pos (isPrefixOf_append_self ghHttps i), List.drop_left]

/-- Extraction result for a normalized `…/owner/repo` reference. -/
theorem parse_two (o r : Str) (ho : '/' ∉ o) (hr : '/' ∉ r)
    (hgit : gitSuffix.isSuffixOf r = false) :
    parseNormalized (ghHttps ++ (o ++ '/' :: r))
      = ⟨ghHttps ++ o ++ '/' :: r ++ gitSuffix, none, none⟩ := by
  rw [parseNormalized_segments, split_or o r ho hr, parseSegments_two,
    stripOneGit_no r hgit]

/-- Extraction result for a normalized `…/owner/repo.git` reference. -/
theorem parse_two_git (o r : Str) (ho : '/' ∉ o) (hr : '/' ∉ r) :
    parseNormalized (ghHttps ++ (o ++ '/' :: (r ++ gitSuffix)))
      = ⟨ghHttps ++ o ++ '/' :: r ++ gitSuffix, none, none⟩ := by
  rw [parseNormalized_segments,
    split_or o (r ++ gitSuffix) ho (char_not_mem_append '/' r gitSuffix hr (by decide)),
    parseSegments_two, stripOneGit_yes]

/-- Extraction result for a normalized tree folder reference. -/
theorem parse_tree_norm (o r b p : Str) (ho : '/' ∉ o) (hr : '/' ∉ r)
    (hb : '/' ∉ b) (hgit : gitSuffix.isSuffixOf r = false) :
    parseNormalized
        (ghHttps ++ (o ++ '/' :: (r ++ '/' :: (treeSeg ++ '/' :: (b ++ '/' :: p)))))
      = ⟨ghHttps ++ o ++ '/' :: r ++ gitSuffix, some b, some p⟩ := by
  rw [parseNormalized_segments, split_tree o r b p ho hr hb]
  rcases hsp : splitOnChar '/' p with _ | ⟨s1, s2⟩
  · exact absurd hsp (splitOnChar_ne_nil '/' p)
  · rw [parseSegments_tree, stripOneGit_no r hgit, ← hsp, intercalate_splitOnChar]

/-- Normalization keeps an https reference. -/
theorem normalizeRef_https (i : Str) (hne : i ≠ [])
    (hlast : ∀ x, i.getLast? = some x → isSafeChar x = true) :
    normalizeRef (ghHttps ++ i) = ghHttps ++ i := by
  unfold normalizeRef
  rw [trims_id_append ghHttps i (by decide) (by intro y hy; cases hy; decide) hne hlast,
    applyPrefixRules_https, trimEnd_https_tail i hne hlast]

/-- Normalization drops the trailing slash of an https reference. -/
theorem normalizeRef_https_slash (i : Str) (hne : i ≠ [])
    (hlast : ∀ x, i.getLast? = some x → isSafeChar x = true) :
    normalizeRef ((ghHttps ++ i) ++ ['/']) = ghHttps ++ i := by
  unfold normalizeRef
  rw [trims_slash_append ghHttps i (by decide) (by intro y hy; cases hy; decide) hne hlast,
    applyPrefixRules_https, trimEnd_https_tail i hne hlast]

/-- Normalization upgrades an http reference. -/
theorem normalizeRef_http (i : Str) (hne : i ≠ [])
    (hlast : ∀ x, i.getLast? = some x → isSafeChar x = true) :
    normalizeRef (ghHttp ++ i) = ghHttps ++ i := by
  unfold normalizeRef
  rw [trims_id_append ghHttp i (by decide) (by intro y hy; cases hy; decide) hne hlast,
    applyPrefixRules_http, trimEnd_https_tail i hne hlast]

/-- Normalization upgrades an http reference with a trailing slash. -/
theorem normalizeRef_http_slash (i : Str) (hne : i ≠ [])
    (hlast : ∀ x, i.getLast? = some x → isSafeChar x = true) :
    normalizeRef ((ghHttp ++ i) ++ ['/']) = ghHttps ++ i := by
  unfold normalizeRef
  rw [trims_slash_append ghHttp i (by decide) (by intro y hy; cases hy; decide) hne hlast,
    applyPrefixRules_http, trimEnd_https_tail i hne hlast]

/-- Normalization upgrades a bare `github.com/` reference. -/
theorem normalizeRef_bare (i : Str) (hne : i ≠ [])
    (hlast : ∀ x, i.getLast? = some x → isSafeChar x = true) :
    normalizeRef (ghBare ++ i) = ghHttps ++ i := by
  unfold normalizeRef
  rw [trims_id_append ghBare i (by decide) (by intro y hy; cases hy; decide) hne hlast,
    applyPrefixRules_bare, trimEnd_https_tail i hne hlast]

/-- Normalization upgrades a bare reference with a trailing slash. -/
theorem normalizeRef_bare_slash (i : Str) (hne : i ≠ [])
    (hlast : ∀ x, i.getLast? = some x → isSafeChar x = true) :
    normalizeRef ((ghBare ++ i) ++ ['/']) = ghHttps ++ i := by
  unfold normalizeRef
  rw [trims_slash_append ghBare i (by decide) (by intro y hy; cases hy; decide) hne hlast,
    applyPrefixRules_bare, trimEnd_https_tail i hne hlast]

/-- Normalization expands an accepted shorthand reference. -/
theorem normalizeRef_shorthand (o tail2 : Str)
    (hsh : looks_like_github_shorthand (o ++ '/' :: tail2) = true)
    (hoSafe : SafeSeg o) (hoGh : o ≠ ghBareHost)
    (hcolon : ':' ∉ o ++ '/' :: tail2)
    (htail : ∀ x, ('/' :: tail2).getLast? = some x →
      rustIsWhitespace x = false ∧ ¬ x = '/') :
    normalizeRef (o ++ '/' :: tail2) = ghHttps ++ (o ++ '/' :: tail2) := by
  have hoHead : ∀ y, o.head? = some y → rustIsWhitespace y = false := by
    intro y hy
    obtain ⟨y', hy', hys⟩ := safeSeg_head o hoSafe
    rw [hy'] at hy
    cases hy
    exact (isSafeChar_spec _ hys).2.2.2.2
  unfold normalizeRef
  rw [trims_id_append_w o ('/' :: tail2) hoSafe.1 hoHead (by simp) htail]
  rw [applyPrefixRules_shorthand _ hcolon
    (not_bare_of_owner o tail2 (safeSeg_not_mem o hoSafe).1 hoGh) hsh]
  apply trimEndChar_eq_self_of_last
  intro x hx
  rw [getLast?_append_right ghHttps _ (by simp)] at hx
  rw [getLast?_append_right o _ (by simp)] at hx
  exact (htail x hx).2

/-- Normalization expands a shorthand reference with a trailing slash. -/
theorem normalizeRef_shorthand_slash (o tail2 : Str)
    (hsh : looks_like_github_shorthand (o ++ '/' :: tail2) = true)
    (hoSafe : SafeSeg o) (hoGh : o ≠ ghBareHost)
    (hcolon : ':' ∉ o ++ '/' :: tail2)
    (htail : ∀ x, ('/' :: tail2).getLast? = some x →
      rustIsWhitespace x = false ∧ ¬ x = '/') :
    normalizeRef ((o ++ '/' :: tail2) ++ ['/']) = ghHttps ++ (o ++ '/' :: tail2) := by
  have hoHead : ∀ y, o.head? = some y → rustIsWhitespace y = false := by
    intro y hy
    obtain ⟨y', hy', hys⟩ := safeSeg_head o hoSafe
    rw [hy'] at hy
    cases hy
    exact (isSafeChar_spec _ hys).2.2.2.2
  unfold normalizeRef
  rw [trims_slash_append_w o ('/' :: tail2) hoSafe.1 hoHead (by simp) htail]
  rw [applyPrefixRules_shorthand _ hcolon
    (not_bare_of_owner o tail2 (safeSeg_not_mem o hoSafe).1 hoGh) hsh]
  apply trimEndChar_eq_self_of_last
  intro x hx
  rw [getLast?_append_right ghHttps _ (by simp)] at hx
  rw [getLast?_append_right o _ (by simp)] at hx
  exact (htail x hx).2

/-- The last character of the tree-reference tail is the path's. -/
theorem getLast?_tree_tail (r b p : Str) (hp : p ≠ []) :
    ('/' :: (r ++ '/' :: (treeSeg ++ '/' :: (b ++ '/' :: p)))).getLast?
      = p.getLast? := by
  rw [getLast?_cons_of_ne '/' _ (by simp),
    getLast?_append_right r _ (by simp),
    getLast?_cons_of_ne '/' _ (by simp),
    getLast?_append_right treeSeg _ (by simp),
    getLast?_cons_of_ne '/' _ (by simp),
    getLast?_append_right b _ (by simp),
    getLast?_cons_of_ne '/' p hp]

/-- A safe last character is in particular non-whitespace, non-slash. -/
theorem weak_of_safe (i : Str)
    (h : ∀ x, i.getLast? = some x → isSafeChar x = true) :
    ∀ x, i.getLast? = some x → rustIsWhitespace x = false ∧ ¬ x = '/' :=
  fun x hx => ⟨(isSafeChar_spec _ (h x hx)).2.2.2.2, (isSafeChar_spec _ (h x hx)).1⟩

/-- Claim C6 counterexample: with `owner = "github.com"` — which lies in
the safe character class and contains no scheme, `@` or `:` — the
reference `owner/repo/tree/b/p` is captured by the bare `github.com/`
prefix rule first, so it does not parse to the claimed clone URL (it
yields `https://github.com/repo/tree.git` with no branch). -/
theorem parse_github_owner_counterexample :
    (parse_github_url ("github.com/repo/tree/b/p".toList)).clone_url
        ≠ ("https://github.com/github.com/repo.git".toList) ∧
    (parse_github_url ("github.com/repo/tree/b/p".toList)).branch
        ≠ some ("b".toList) := by
  decide

/-- Claim C6 (amended): for an owner in the safe class that is neither
dot-led nor the literal `github.com`, a safe repo that is not a dot
segment and carries no `.git` suffix, a slash/colon/at-free branch and
a non-empty path free of `:`/`@` whose last character is neither
whitespace nor a slash: the folder reference
`owner/repo/tree/<branch>/<path>` parses to the canonical clone URL
with that branch and subpath, and every GitHub-shaped form of
`owner/repo` (https with or without `.git`, http, bare `github.com/`
prefix, shorthand, each with or without a trailing slash) resolves to
the same canonical `https://github.com/owner/repo.git`. -/
theorem github_reference_resolution (o r b p : Str)
    (hO : OwnerOk o) (hR : RepoOk r)
    (hbS : '/' ∉ b) (hbC : ':' ∉ b) (hbA : '@' ∉ b)
    (hpNe : p ≠ []) (hpC : ':' ∉ p) (hpA : '@' ∉ p)
    (hpLast : ∀ x, p.getLast? = some x → rustIsWhitespace x = false ∧ ¬ x = '/') :
    parse_github_url (o ++ '/' :: (r ++ '/' :: (treeSeg ++ '/' :: (b ++ '/' :: p))))
      = ⟨ghHttps ++ o ++ '/' :: r ++ gitSuffix, some b, some p⟩ ∧
    parse_github_url (ghHttps ++ (o ++ '/' :: r))
      = ⟨ghHttps ++ o ++ '/' :: r ++ gitSuffix, none, none⟩ ∧
    parse_github_url (ghHttps ++ (o ++ '/' :: (r ++ gitSuffix)))
      = ⟨ghHttps ++ o ++ '/' :: r ++ gitSuffix, none, none⟩ ∧
    parse_github_url ((ghHttps ++ (o ++ '/' :: r)) ++ ['/'])
      = ⟨ghHttps ++ o ++ '/' :: r ++ gitSuffix, none, none⟩ ∧
    parse_github_url ((ghHttps ++ (o ++ '/' :: (r ++ gitSuffix))) ++ ['/'])
      = ⟨ghHttps ++ o ++ '/' :: r ++ gitSuffix, none, none⟩ ∧
    parse_github_url (ghHttp ++ (o ++ '/' :: r))
      = ⟨ghHttps ++ o ++ '/' :: r ++ gitSuffix, none, none⟩ ∧
    parse_github_url ((ghHttp ++ (o ++ '/' :: r)) ++ ['/'])
      = ⟨ghHttps ++ o ++ '/' :: r ++ gitSuffix, none, none⟩ ∧
    parse_github_url (ghBare ++ (o ++ '/' :: r))
      = ⟨ghHttps ++ o ++ '/' :: r ++ gitSuffix, none, none⟩ ∧
    parse_github_url ((ghBare ++ (o ++ '/' :: r)) ++ ['/'])
      = ⟨ghHttps ++ o ++ '/' :: r ++ gitSuffix, none, none⟩ ∧
    parse_github_url (o ++ '/' :: r)
      = ⟨ghHttps ++ o ++ '/' :: r ++ gitSuffix, none, none⟩ ∧
    parse_github_url ((o ++ '/' :: r) ++ ['/'])
      = ⟨ghHttps ++ o ++ '/' :: r ++ gitSuffix, none, none⟩ := by
  obtain ⟨hoSafe, hoD, hoGh⟩ := hO
  obtain ⟨hrSafe, hrD1, hrD2, hrGit⟩ := hR
  have hoM := safeSeg_not_mem o hoSafe
  have hrM := safeSeg_not_mem r hrSafe
  have hg : SafeSeg (r ++ gitSuffix) :=
    safeSeg_append r gitSuffix hrSafe ⟨by decide, by decide⟩
  have hlast2 : ∀ x, ('/' :: r).getLast? = some x → isSafeChar x = true :=
    lastSafe_slashCons r hrSafe
  have hlast2g : ∀ x, ('/' :: (r ++ gitSuffix)).getLast? = some x → isSafeChar x = true :=
    lastSafe_slashCons _ hg
  have hI2 : ∀ x, (o ++ '/' :: r).getLast? = some x → isSafeChar x = true :=
    lastSafe_append o ('/' :: r) (by simp) hlast2
  have hI2g : ∀ x, (o ++ '/' :: (r ++ gitSuffix)).getLast? = some x → isSafeChar x = true :=
    lastSafe_append o ('/' :: (r ++ gitSuffix)) (by simp) hlast2g
  have hp2 := parse_two o r hoM.1 hrM.1 hrGit
  have hp2g := parse_two_git o r hoM.1 hrM.1
  have hcolon2 : ':' ∉ o ++ '/' :: r :=
    char_not_mem_append ':' o _ hoM.2.1
      (char_not_mem_cons ':' '/' r (by decide) hrM.2.1)
  have hat2 : '@' ∉ o ++ '/' :: r :=
    char_not_mem_append '@' o _ hoM.2.2
      (char_not_mem_cons '@' '/' r (by decide) hrM.2.2)
  have hsh2 : looks_like_github_shorthand (o ++ '/' :: r) = true :=
    shorthand_true o r r [] (split_or o r hoM.1 hrM.1) hoSafe hoD hrSafe.1
      hrD1 hrD2 hrSafe.2 hcolon2 hat2 (Or.inl rfl)
  have hw2 := weak_of_safe ('/' :: r) hlast2
  have hcolonT : ':' ∉ o ++ '/' :: (r ++ '/' :: (treeSeg ++ '/' :: (b ++ '/' :: p))) :=
    char_not_mem_append ':' o _ hoM.2.1
      (char_not_mem_cons ':' '/' _ (by decide)
        (char_not_mem_append ':' r _ hrM.2.1
          (char_not_mem_cons ':' '/' _ (by decide)
            (char_not_mem_append ':' treeSeg _ (by decide)
              (char_not_mem_cons ':' '/' _ (by decide)
                (char_not_mem_append ':' b _ hbC
                  (char_not_mem_cons ':' '/' p (by decide) hpC)))))))
  have hatT : '@' ∉ o ++ '/' :: (r ++ '/' :: (treeSeg ++ '/' :: (b ++ '/' :: p))) :=
    char_not_mem_append '@' o _ hoM.2.2
      (char_not_mem_cons '@' '/' _ (by decide)
        (char_not_mem_append '@' r _ hrM.2.2
          (char_not_mem_cons '@' '/' _ (by decide)
            (char_not_mem_append '@' treeSeg _ (by decide)
              (char_not_mem_cons '@' '/' _ (by decide)
                (char_not_mem_append '@' b _ hbA
                  (char_not_mem_cons '@' '/' p (by decide) hpA)))))))
  have hshT : looks_like_github_shorthand
      (o ++ '/' :: (r ++ '/' :: (treeSeg ++ '/' :: (b ++ '/' :: p)))) = true :=
    shorthand_true o _ r (treeSeg :: b :: splitOnChar '/' p)
      (split_tree o r b p hoM.1 hrM.1 hbS) hoSafe hoD hrSafe.1 hrD1 hrD2
      hrSafe.2 hcolonT hatT
      (Or.inr ⟨treeSeg, b :: splitOnChar '/' p, rfl, Or.inl rfl⟩)
  have htailT : ∀ x,
      ('/' :: (r ++ '/' :: (treeSeg ++ '/' :: (b ++ '/' :: p)))).getLast? = some x →
      rustIsWhitespace x = false ∧ ¬ x = '/' := by
    intro x hx
    rw [getLast?_tree_tail r b p hpNe] at hx
    exact hpLast x hx
  refine ⟨?_, ?_, ?_, ?_, ?_, ?_, ?_, ?_, ?_, ?_, ?_⟩
  · unfold parse_github_url
    rw [normalizeRef_shorthand o _ hshT hoSafe hoGh hcolonT htailT]
    exact parse_tree_norm o r b p hoM.1 hrM.1 hbS hrGit
  · unfold parse_github_url
    rw [normalizeRef_https _ (by simp) hI2]
    exact hp2
  · unfold parse_github_url
    rw [normalizeRef_https _ (by simp) hI2g]
    exact hp2g
  · unfold parse_github_url
    rw [normalizeRef_https_slash _ (by simp) hI2]
    exact hp2
  · unfold parse_github_url
    rw [normalizeRef_https_slash _ (by simp) hI2g]
    exact hp2g
  · unfold parse_github_url
    rw [normalizeRef_http _ (by simp) hI2]
    exact hp2
  · unfold parse_github_url
    rw [normalizeRef_http_slash _ (by simp) hI2]
    exact hp2
  · unfold parse_github_url
    rw [normalizeRef_bare _ (by simp) hI2]
    exact hp2
  · unfold parse_github_url
    rw [normalizeRef_bare_slash _ (by simp) hI2]
    exact hp2
  · unfold parse_github_url
    rw [normalizeRef_shorthand o r hsh2 hoSafe hoGh hcolon2 hw2]
    exact hp2
  · unfold parse_github_url
    rw [normalizeRef_shorthand_slash o r hsh2 hoSafe hoGh hcolon2 hw2]
    exact hp2

/-- Witness for the amended C6 at a concrete reference:
`a/r/tree/m/x/y` parses to the canonical clone URL, branch `m` and
subpath `x/y`. -/
theorem github_reference_resolution_witness :
    parse_github_url
        (['a'] ++ '/' :: (['r'] ++ '/' :: (treeSeg ++ '/' :: (['m'] ++ '/' :: ['x', '/', 'y']))))
      = ⟨ghHttps ++ ['a'] ++ '/' :: ['r'] ++ gitSuffix, some ['m'], some ['x', '/', 'y']⟩ :=
  (github_reference_resolution ['a'] ['r'] ['m'] ['x', '/', 'y']
    (by refine ⟨⟨by decide, by decide⟩, by decide, by decide⟩)
    (by refine ⟨⟨by decide, by decide⟩, by decide, by decide, by decide⟩)
    (by decide) (by decide) (by decide) (by decide) (by decide) (by decide)
    (by intro x hx; cases hx; decide)).1
